import Mathlib

/-!
Verification of goveralls, `gocover.go`: profile merging and line coverage.

A shallow embedding of `getModuleNameFromGoMod`, `maybeFindFileFastPath`,
`findFile`, `mergeProfs`, `mergeProfBlocks` and `toSF` of `gocover.go`, and
theorems about them.

Modelling conventions.

* Go `int` is a 64-bit two's-complement integer.  Values are carried as `Int`
  and the one arithmetic operation that can overflow in this file, the addition
  of execution counts, is `goAdd`, which wraps to the 64-bit range.
* `log.Fatal`, a nil dereference and an index that is out of range all end the
  process; functions that can do one of these return `Except Fatal _`.
* `[]*cover.Profile` is a slice of pointers.  `mergeProfs` assigns to
  `profile.Blocks` through such a pointer, so profiles live in a heap
  (`Heap`, a list of profiles addressed by position) and a report is a list of
  addresses.  An address outside the heap plays the role of `nil`.
-/

namespace Gocover

/-! ## Data model -/

/-- The ways in which the process can end abnormally. -/
inductive Fatal where
  /-- `log.Fatal("Two block length should be same")`. -/
  | blockLength
  /-- `log.Fatal("Blocks are not sorted")`. -/
  | notSorted
  /-- A run-time panic: dereference of a nil pointer. -/
  | nilDeref
  /-- A run-time panic: index out of range. -/
  | indexOutOfRange
  /-- `log.Fatalf("Can't find %v", err)` in `toSF`. -/
  | cantFind
  /-- `log.Fatalf("Error reading %v: %v", path, err)` in `toSF`. -/
  | readError
  deriving DecidableEq, Repr

/-- The block record `cover.ProfileBlock`: six `int` fields. -/
structure ProfileBlock where
  StartLine : Int
  StartCol : Int
  EndLine : Int
  EndCol : Int
  NumStmt : Int
  Count : Int
  deriving DecidableEq, Repr

/-- The record `cover.Profile`. -/
structure Profile where
  FileName : String
  Mode : String
  Blocks : List ProfileBlock
  deriving DecidableEq, Repr

/-- An address of a `cover.Profile` object (`*cover.Profile`). -/
abbrev Ptr := Nat

/-- The store of `cover.Profile` objects, addressed by position. -/
abbrev Heap := List Profile

/-- One coverage report, `[]*cover.Profile`. -/
abbrev Report := List Ptr

/-- Wrap an integer to the range of a 64-bit Go `int`. -/
def wrapInt (x : Int) : Int :=
  (x + 9223372036854775808) % 18446744073709551616 - 9223372036854775808

/-- Go addition on `int`: `a + b` with two's-complement wrap-around. -/
def goAdd (a b : Int) : Int := wrapInt (a + b)

/-! ## mergeProfBlocks (gocover.go, lines 123-139) -/

/-- The loop `for i, a := range as` of `mergeProfBlocks`; `ret` is the slice
built so far, the second list is `bs[i:]`. -/
def mergeProfBlocksLoop :
    List ProfileBlock → List ProfileBlock → List ProfileBlock → Except Fatal (List ProfileBlock)
  | [], _, ret => .ok ret
  | _ :: _, [], _ => .error .indexOutOfRange
  | a :: as, b :: bs, ret =>
    if a.StartLine ≠ b.StartLine ∨ a.StartCol ≠ b.StartCol then .error .notSorted
    else mergeProfBlocksLoop as bs (ret ++ [{ a with Count := goAdd a.Count b.Count }])

/-- The function `mergeProfBlocks(as, bs)`. -/
def mergeProfBlocks (as bs : List ProfileBlock) : Except Fatal (List ProfileBlock) :=
  if as.length ≠ bs.length then .error .blockLength
  else mergeProfBlocksLoop as bs []

/-! ## mergeProfs (gocover.go, lines 91-121) -/

/-- The first loop of `mergeProfs`: the suffix of `pfss` that starts at the first
non-empty report, `none` when the loop ends without reaching `break`. -/
def skipEmptyLoop : List Report → Option (List Report)
  | [] => none
  | r :: rs => if r.length > 0 then some (r :: rs) else skipEmptyLoop rs

/-- The value of `pfss` after the first loop of `mergeProfs`: unchanged when no
report is non-empty. -/
def skipEmpty (pfss : List Report) : List Report :=
  match skipEmptyLoop pfss with
  | some s => s
  | none => pfss

/-- The inner loop `for _, ps := range rest` of `mergeProfs`, for the baseline
profile object `profile` at index `i`. -/
def mergeProfsInner (i : Nat) (profile : Ptr) : Heap → List Report → Except Fatal Heap
  | h, [] => .ok h
  | h, ps :: rest =>
    if ps.length = 0 then mergeProfsInner i profile h rest
    else if ps.length < i + 1 then mergeProfsInner i profile h rest
    else
      match ps[i]?.bind (fun q => h[q]?) with
      | none => .error .nilDeref
      | some q =>
        match h[profile]? with
        | none => .error .nilDeref
        | some pr =>
          if q.FileName ≠ pr.FileName then mergeProfsInner i profile h rest
          else
            match mergeProfBlocks pr.Blocks q.Blocks with
            | .error e => .error e
            | .ok bl => mergeProfsInner i profile (h.set profile { pr with Blocks := bl }) rest

/-- The outer loop `for i, profile := range head` of `mergeProfs`: `i` is the
current index, the list is `head[i:]`, `ret` the slice built so far. -/
def mergeProfsOuter (rest : List Report) :
    Heap → Nat → List Ptr → List Ptr → Except Fatal (Heap × List Ptr)
  | h, _, [], ret => .ok (h, ret)
  | h, i, profile :: tl, ret =>
    match mergeProfsInner i profile h rest with
    | .error e => .error e
    | .ok h1 => mergeProfsOuter rest h1 (i + 1) tl (ret ++ [profile])

/-- The function `mergeProfs(pfss)`, run in heap `h`: the heap after the call
and the returned slice. -/
def mergeProfs (h : Heap) (pfss : List Report) : Except Fatal (Heap × Report) :=
  match skipEmpty pfss with
  | [] => .ok (h, [])
  | [r] => .ok (h, r)
  | head :: rest => mergeProfsOuter rest h 0 head []

/-! ## toSF (gocover.go, lines 142-170) -/

/-- Modelled from the spec: the record type `SourceFile` is declared outside
`gocover.go`; the spec describes it as the file's identifying name, its full
source text and a per-line coverage array whose entries are either "not
executable" (`none`, a nil `interface{}`) or a hit count. -/
structure SourceFile where
  Name : String
  Source : List Nat
  Coverage : List (Option Int)
  deriving DecidableEq, Repr

/-- The newline byte. -/
def newline : Nat := 10

/-- The allocation `make([]interface{}, 1+bytes.Count(fb, []byte{'\n'}))`:
every entry is nil. -/
def newCoverage (fb : List Nat) : List (Option Int) :=
  List.replicate (1 + fb.count newline) none

/-- The type assertion `count, _ := v.(int)`: zero for a nil entry. -/
def asInt (v : Option Int) : Int :=
  match v with
  | some c => c
  | none => 0

/-- One iteration of the line loop of `toSF` for line `i` and a block of count
`c`: `count, _ := cov[i-1].(int); cov[i-1] = count + c`, a panic when `i-1` is
not an index of `cov`. -/
def touchLine (cov : List (Option Int)) (i c : Int) : Except Fatal (List (Option Int)) :=
  if 0 ≤ i - 1 ∧ i - 1 < cov.length then
    .ok (cov.set (i - 1).toNat (some (goAdd (asInt (cov[(i - 1).toNat]?.join)) c)))
  else .error .indexOutOfRange

/-- The loop `for i := block.StartLine; i <= block.EndLine; i++` from line
`i` on, with `k` iterations left. -/
def lineLoop (c : Int) : Nat → Int → List (Option Int) → Except Fatal (List (Option Int))
  | 0, _, cov => .ok cov
  | k + 1, i, cov =>
    match touchLine cov i c with
    | .error e => .error e
    | .ok cov1 => lineLoop c k (i + 1) cov1

/-- The line loop of `toSF` for one block: it runs for the lines
`StartLine, ..., EndLine`, that is `EndLine - StartLine + 1` times when
`StartLine <= EndLine` and not at all otherwise. -/
def blockLoop (cov : List (Option Int)) (block : ProfileBlock) : Except Fatal (List (Option Int)) :=
  lineLoop block.Count (block.EndLine - block.StartLine + 1).toNat block.StartLine cov

/-- The loop `for _, block := range prof.Blocks` of `toSF`. -/
def blocksLoop : List (Option Int) → List ProfileBlock → Except Fatal (List (Option Int))
  | cov, [] => .ok cov
  | cov, block :: bs =>
    match blockLoop cov block with
    | .error e => .error e
    | .ok cov1 => blocksLoop cov1 bs

/-- The coverage array that `toSF` builds for a file with contents `fb` and the
blocks `blocks` (lines 156-164). -/
def buildCoverage (fb : List Nat) (blocks : List ProfileBlock) : Except Fatal (List (Option Int)) :=
  blocksLoop (newCoverage fb) blocks

/-- The function `toSF(profs)`, with `rv` the slice built so far.  The file
resolver `findFile`, the file reader `ioutil.ReadFile` and the naming function
`getCoverallsSourceFileName` are parameters; the first two answer `none` for an
error. -/
def toSFLoop (findFile : String → Option String) (readFile : String → Option (List Nat))
    (getCoverallsSourceFileName : String → String) (h : Heap) :
    List Ptr → List SourceFile → Except Fatal (List SourceFile)
  | [], rv => .ok rv
  | prof :: profs, rv =>
    match h[prof]? with
    | none => .error .nilDeref
    | some p =>
      match findFile p.FileName with
      | none => .error .cantFind
      | some path =>
        match readFile path with
        | none => .error .readError
        | some fb =>
          match buildCoverage fb p.Blocks with
          | .error e => .error e
          | .ok cov =>
            toSFLoop findFile readFile getCoverallsSourceFileName h profs
              (rv ++ [{ Name := getCoverallsSourceFileName path, Source := fb, Coverage := cov }])

/-- The function `toSF(profs)`. -/
def toSF (findFile : String → Option String) (readFile : String → Option (List Nat))
    (getCoverallsSourceFileName : String → String) (h : Heap) (profs : List Ptr) :
    Except Fatal (List SourceFile) :=
  toSFLoop findFile readFile getCoverallsSourceFileName h profs []

/-! ## Views used in the statements -/

/-- The profiles a report points to: `none` for an address outside the heap. -/
def loadReport (h : Heap) (r : Report) : List (Option Profile) :=
  r.map (fun p => h[p]?)

/-- The heap `h` holds the reports `vals` at the addresses `pfss`. -/
def Represents (h : Heap) (pfss : List Report) (vals : List (List Profile)) : Prop :=
  pfss.map (loadReport h) = vals.map (List.map some)

/-- No profile object is shared: all addresses in all reports are distinct. -/
def NoAlias (pfss : List Report) : Prop := pfss.flatten.Nodup

/-- The baseline of `mergeProfs`: the first non-empty report, the empty report
when there is none. -/
def baseline : List Report → Report
  | [] => []
  | r :: rs => if r.length > 0 then r else baseline rs

/-- Two block lists have equal length and agree, index by index, on
`StartLine` and `StartCol`. -/
def SameBlocks (as bs : List ProfileBlock) : Prop :=
  List.Forall₂ (fun a b => a.StartLine = b.StartLine ∧ a.StartCol = b.StartCol) as bs

/-- Two reports have identical file/block structure: the same number of file
profiles, the same file name at every index and block lists that satisfy
`SameBlocks`. -/
def SameShape (r s : List Profile) : Prop :=
  List.Forall₂ (fun P Q => P.FileName = Q.FileName ∧ SameBlocks P.Blocks Q.Blocks) r s

/-- The count of block `j` of file profile `i` of a report, when there is one. -/
def countAt (r : List Profile) (i j : Nat) : Option Int :=
  (r[i]?.bind (fun P => P.Blocks[j]?)).map (fun b => b.Count)

/-- The block lists that `mergeProfs` merges into the baseline profile with
file name `name` at index `i`: those of the later reports that have a profile
at index `i` with that file name, in order. -/
def selected (name : String) (i : Nat) (rest : List (List Profile)) : List (List ProfileBlock) :=
  rest.filterMap (fun ps =>
    match ps[i]? with
    | some Q => if Q.FileName = name then some Q.Blocks else none
    | none => none)

/-- Block `b` covers line `l`. -/
def Covers (b : ProfileBlock) (l : Int) : Prop := b.StartLine ≤ l ∧ l ≤ b.EndLine

/-- The counts of the blocks that cover line `l`, in order, with multiplicity. -/
def coveringCounts (blocks : List ProfileBlock) (l : Int) : List Int :=
  (blocks.filter (fun b => decide (b.StartLine ≤ l ∧ l ≤ b.EndLine))).map (fun b => b.Count)

/-- Every block that covers a line at all lies within the lines `1..n`. -/
def InRange (n : Nat) (blocks : List ProfileBlock) : Prop :=
  ∀ b ∈ blocks, b.StartLine ≤ b.EndLine → 1 ≤ b.StartLine ∧ b.EndLine ≤ n

instance (h : Heap) (pfss : List Report) (vals : List (List Profile)) :
    Decidable (Represents h pfss vals) := by
  unfold Represents; infer_instance

instance (pfss : List Report) : Decidable (NoAlias pfss) := by
  unfold NoAlias; infer_instance

instance (as bs : List ProfileBlock) : Decidable (SameBlocks as bs) := by
  unfold SameBlocks; infer_instance

instance (r s : List Profile) : Decidable (SameShape r s) := by
  unfold SameShape; infer_instance

instance (b : ProfileBlock) (l : Int) : Decidable (Covers b l) := by
  unfold Covers; infer_instance

instance (n : Nat) (blocks : List ProfileBlock) : Decidable (InRange n blocks) := by
  unfold InRange; infer_instance

/-- The file name and mode of the profile at address `q`, when there is one. -/
def headerAt (h : Heap) (q : Ptr) : Option (String × String) :=
  h[q]?.map (fun P => (P.FileName, P.Mode))

/-- The update of one block in `mergeProfBlocks`: `a.Count += b.Count`. -/
def addCount (a b : ProfileBlock) : ProfileBlock := { a with Count := goAdd a.Count b.Count }

deriving instance DecidableEq for Except

/-- The file names of the profiles a report points to, in order. -/
def fileNames (h : Heap) (r : Report) : List (Option String) :=
  r.map (fun p => h[p]?.map (fun P => P.FileName))

/-- The entry of a line after the counts `cs` have been added to it one by one,
starting from the entry `v`. -/
def accum : Option Int → List Int → Option Int
  | v, [] => v
  | v, c :: cs => accum (some (goAdd (asInt v) c)) cs

/-- The block lists that the inner loop of `mergeProfs` merges into a baseline
profile named `name` at index `i`, read through the heap `h`. -/
def selPtr (h : Heap) (name : String) (i : Nat) (rest : List Report) : List (List ProfileBlock) :=
  rest.filterMap (fun ps =>
    match ps[i]?.bind (fun q => h[q]?) with
    | some Q => if Q.FileName = name then some Q.Blocks else none
    | none => none)

/-- The list of reports with all empty reports removed. -/
def nonEmptyReports (pfss : List Report) : List Report :=
  pfss.filter (fun r => decide (0 < r.length))

/-- What the outer loop of `mergeProfs` needs of the heap to be described
index by index: the baseline objects `tl` are distinct and present, and the
objects of the later reports are present and are none of the baseline's. -/
def OuterPre (rest : List Report) (h : Heap) (tl : List Ptr) : Prop :=
  tl.Nodup ∧ (∀ p ∈ tl, ∃ P, h[p]? = some P) ∧
    ∀ ps ∈ rest, ∀ q ∈ ps, q ∉ tl ∧ ∃ Q, h[q]? = some Q

/-- The state after the outer loop of `mergeProfs`, started in heap `h` at index
`i` with `tl` left to do and `ret` built: the returned list, and the heap `h1`
in which exactly the objects of `tl` hold their merged blocks. -/
def OuterPost (rest : List Report) (h : Heap) (i : Nat) (tl ret : List Ptr) (h1 : Heap)
    (res : List Ptr) : Prop :=
  res = ret ++ tl ∧ h1.length = h.length ∧ (∀ q : Ptr, q ∉ tl → h1[q]? = h[q]?) ∧
    ∀ (k : Nat) (p : Ptr), tl[k]? = some p → ∃ (P : Profile) (B : List ProfileBlock),
      h[p]? = some P ∧
      List.foldlM mergeProfBlocks P.Blocks (selPtr h P.FileName (i + k) rest) = .ok B ∧
      h1[p]? = some { P with Blocks := B }

/-! ## getModuleNameFromGoMod, maybeFindFileFastPath, findFile (gocover.go, lines 24-87)

The text of a go.mod file is a list of characters (the decoded contents);
paths and names are strings.  The file system, the path functions of
`path/filepath` and the package locator `build.Import` are the fields of `Env`. -/

/-- The white space of `strings.Fields`, the predicate `unicode.IsSpace`. -/
def isSpace (c : Char) : Bool :=
  (9 ≤ c.toNat && c.toNat ≤ 13) || c.toNat = 32 || c.toNat = 133 || c.toNat = 160 ||
    c.toNat = 5760 || (8192 ≤ c.toNat && c.toNat ≤ 8202) || c.toNat = 8232 ||
    c.toNat = 8233 || c.toNat = 8239 || c.toNat = 8287 || c.toNat = 12288

/-- The call `strings.Split(contents, "\n")`: the pieces between the newline
characters, one piece for a text without newline. -/
def splitLines : List Char → List (List Char)
  | [] => [[]]
  | c :: cs =>
    if c = Char.ofNat 10 then [] :: splitLines cs
    else
      match splitLines cs with
      | [] => [[c]]
      | l :: ls => (c :: l) :: ls

/-- The scan of `strings.Fields`: `cur` is the field being read. -/
def fieldsLoop : List Char → List Char → List (List Char)
  | cur, [] => if cur = [] then [] else [cur]
  | cur, c :: cs =>
    if isSpace c then
      if cur = [] then fieldsLoop [] cs else cur :: fieldsLoop [] cs
    else fieldsLoop (cur ++ [c]) cs

/-- The call `strings.Fields(line)`: the maximal runs of characters that are
not white space. -/
def fields (line : List Char) : List (List Char) := fieldsLoop [] line

/-- The call `strings.HasPrefix(line, "module")`. -/
def startsWithModule (line : List Char) : Bool := "module".data.isPrefixOf line

/-- The loop `for _, line := range lines` of `getModuleNameFromGoMod`, with the
final `return ""`. -/
def moduleNameLoop : List (List Char) → String
  | [] => ""
  | line :: lines =>
    if startsWithModule line then
      if h : 1 < (fields line).length then String.mk (fields line)[1]
      else moduleNameLoop lines
    else moduleNameLoop lines

/-- The function `getModuleNameFromGoMod(goModPath)`; `readText` is
`ioutil.ReadFile`, after whose error the function goes on with empty contents. -/
def getModuleNameFromGoMod (readText : String → Option (List Char)) (goModPath : String) :
    String :=
  moduleNameLoop (splitLines (match readText goModPath with
    | some contents => contents
    | none => []))

/-- The surroundings of the file resolver. -/
structure Env where
  /-- The call `filepath.Abs(".")`, `none` for an error. -/
  absDot : Option String
  /-- The probe `os.Stat(p)`: it succeeds and `p` is not a directory. -/
  isFile : String → Bool
  /-- The call `ioutil.ReadFile` on a go.mod file, `none` for an error. -/
  readText : String → Option (List Char)
  /-- The function `filepath.Dir`. -/
  Dir : String → String
  /-- The function `filepath.Join` of two elements. -/
  Join : String → String → String
  /-- The function `filepath.Split`. -/
  Split : String → String × String
  /-- The directory `pkg.Dir` of `build.Import(dir, ".", build.FindOnly)`,
  `none` for an error. -/
  importDir : String → Option String

/-- The call `strings.TrimPrefix(s, pre)`. -/
def trimLeading (s pre : String) : String :=
  if pre.data.isPrefixOf s.data then String.mk (s.data.drop pre.data.length) else s

/-- The outcome of one iteration of the loop of `maybeFindFileFastPath`. -/
inductive SearchStep where
  /-- A go.mod file is in `abs`: `break`. -/
  | found (abs : String)
  /-- The parent is not shorter than the directory: `return ""`. -/
  | ranOut
  /-- Go on with the parent `d`: `abs = d`. -/
  | next (d : String)
  deriving DecidableEq, Repr

/-- One iteration of the loop of `maybeFindFileFastPath` in directory `abs`;
`len` of a Go string is its length in bytes. -/
def goModStep (env : Env) (abs : String) : SearchStep :=
  if env.isFile (env.Join abs "go.mod") then .found abs
  else if (env.Dir abs).utf8ByteSize ≥ abs.utf8ByteSize then .ranOut
  else .next (env.Dir abs)

/-- The loop `for { ... }` of `maybeFindFileFastPath`, run for at most `n`
iterations: `some (some abs)` when a go.mod file is found in `abs`, `some none`
when the search runs out of parents, `none` when `n` iterations do not end
the loop. -/
def goModSearch (env : Env) : Nat → String → Option (Option String)
  | 0, _ => none
  | n + 1, abs =>
    match goModStep env abs with
    | .found a => some (some a)
    | .ranOut => some none
    | .next d => goModSearch env n d

/-- The function `maybeFindFileFastPath(file)`.  The loop is run for
`len(abs) + 1` iterations, which always end it. -/
def maybeFindFileFastPath (env : Env) (file : String) : String :=
  match env.absDot with
  | none => ""
  | some abs0 =>
    match goModSearch env (abs0.utf8ByteSize + 1) abs0 with
    | none => ""
    | some none => ""
    | some (some abs) =>
      if getModuleNameFromGoMod env.readText (env.Join abs "go.mod") = "" then ""
      else if env.isFile
          (env.Join abs
            (trimLeading file (getModuleNameFromGoMod env.readText (env.Join abs "go.mod"))))
        then env.Join abs
          (trimLeading file (getModuleNameFromGoMod env.readText (env.Join abs "go.mod")))
      else ""

/-- The function `findFile(file)`, `none` for an error. -/
def findFile (env : Env) (file : String) : Option String :=
  if maybeFindFileFastPath env file ≠ "" then some (maybeFindFileFastPath env file)
  else
    match env.importDir (env.Split file).1 with
    | none => none
    | some pkgDir => some (env.Join pkgDir (env.Split file).2)

/-- The lines from which `getModuleNameFromGoMod` returns: they start with
"module" and have more than one field. -/
def declaresModule (line : List Char) : Bool :=
  startsWithModule line && decide (1 < (fields line).length)

/-- Two block lists are equal but for the counts: the same length and, at every
index, the same `StartLine`, `StartCol`, `EndLine`, `EndCol` and `NumStmt`. -/
def BlocksButCount (as bs : List ProfileBlock) : Prop :=
  List.Forall₂ (fun x y : ProfileBlock =>
    x.StartLine = y.StartLine ∧ x.StartCol = y.StartCol ∧ x.EndLine = y.EndLine ∧
      x.EndCol = y.EndCol ∧ x.NumStmt = y.NumStmt) as bs

/-- Two profiles are equal but for the counts of their blocks. -/
def SameButCount (P Q : Profile) : Prop :=
  P.FileName = Q.FileName ∧ P.Mode = Q.Mode ∧ BlocksButCount P.Blocks Q.Blocks

instance (as bs : List ProfileBlock) : Decidable (BlocksButCount as bs) := by
  unfold BlocksButCount; infer_instance

instance (P Q : Profile) : Decidable (SameButCount P Q) := by
  unfold SameButCount; infer_instance

/-! ## 64-bit arithmetic -/

theorem wrapInt_of_range (x : Int) (h1 : -9223372036854775808 ≤ x)
    (h2 : x ≤ 9223372036854775807) : wrapInt x = x := by
  unfold wrapInt; omega

theorem wrapInt_add_left (a b : Int) : wrapInt (wrapInt a + b) = wrapInt (a + b) := by
  unfold wrapInt; omega

theorem wrapInt_add_right (a b : Int) : wrapInt (a + wrapInt b) = wrapInt (a + b) := by
  unfold wrapInt; omega

theorem wrapInt_idem (a : Int) : wrapInt (wrapInt a) = wrapInt a := by
  unfold wrapInt; omega

theorem goAdd_assoc (a b c : Int) : goAdd (goAdd a b) c = goAdd a (goAdd b c) := by
  unfold goAdd; rw [wrapInt_add_left, wrapInt_add_right, Int.add_assoc]

theorem foldl_goAdd_cons (c0 c : Int) (cs : List Int) :
    (c :: cs).foldl goAdd c0 = wrapInt (c0 + (c :: cs).sum) := by
  induction cs generalizing c0 c with
  | nil => simp [goAdd]
  | cons d ds ih =>
    have := ih (goAdd c0 c) d
    simp only [List.foldl_cons, List.sum_cons] at this ⊢
    rw [this]; unfold goAdd
    rw [wrapInt_add_left]; congr 1; omega

/-! ## mergeProfBlocks -/

theorem mergeProfBlocksLoop_ok_iff (as bs ret r : List ProfileBlock)
    (hlen : as.length = bs.length) :
    mergeProfBlocksLoop as bs ret = .ok r ↔
      SameBlocks as bs ∧ r = ret ++ List.zipWith addCount as bs := by
  induction as generalizing bs ret with
  | nil =>
    cases bs with
    | nil => simp [mergeProfBlocksLoop, SameBlocks]; exact eq_comm
    | cons b bs => simp at hlen
  | cons a as ih =>
    cases bs with
    | nil => simp at hlen
    | cons b bs =>
      simp only [List.length_cons, Nat.add_right_cancel_iff] at hlen
      unfold mergeProfBlocksLoop
      by_cases hs : a.StartLine ≠ b.StartLine ∨ a.StartCol ≠ b.StartCol
      · rw [if_pos hs]
        constructor
        · intro h; cases h
        · rintro ⟨h, _⟩
          unfold SameBlocks at h
          rw [List.forall₂_cons] at h
          rcases hs with hs | hs
          · exact absurd h.1.1 hs
          · exact absurd h.1.2 hs
      · rw [if_neg hs, ih bs _ hlen]
        have hs2 : a.StartLine = b.StartLine ∧ a.StartCol = b.StartCol := by
          constructor <;> by_contra hc <;> exact hs (by simp [hc])
        unfold SameBlocks
        rw [List.forall₂_cons]
        simp [hs2, addCount]

theorem mergeProfBlocks_ok_iff (as bs r : List ProfileBlock) :
    mergeProfBlocks as bs = .ok r ↔ SameBlocks as bs ∧ r = List.zipWith addCount as bs := by
  unfold mergeProfBlocks
  by_cases hlen : as.length = bs.length
  · rw [if_neg (by simpa using hlen), mergeProfBlocksLoop_ok_iff as bs [] r hlen]; simp
  · rw [if_pos hlen]
    constructor
    · intro h; cases h
    · rintro ⟨h, _⟩; exact absurd h.length_eq hlen

theorem mergeProfBlocks_notSorted (as bs : List ProfileBlock) (hlen : as.length = bs.length)
    (hs : ¬ SameBlocks as bs) : mergeProfBlocks as bs = .error .notSorted := by
  unfold mergeProfBlocks
  rw [if_neg (by simpa using hlen)]
  generalize ([] : List ProfileBlock) = ret
  induction as generalizing bs ret with
  | nil =>
    cases bs with
    | nil => exact absurd (List.Forall₂.nil) hs
    | cons b bs => simp at hlen
  | cons a as ih =>
    cases bs with
    | nil => simp at hlen
    | cons b bs =>
      simp only [List.length_cons, Nat.add_right_cancel_iff] at hlen
      unfold mergeProfBlocksLoop
      by_cases hc : a.StartLine ≠ b.StartLine ∨ a.StartCol ≠ b.StartCol
      · rw [if_pos hc]
      · rw [if_neg hc]
        apply ih bs hlen
        intro h
        apply hs
        have hs2 : a.StartLine = b.StartLine ∧ a.StartCol = b.StartCol := by
          constructor <;> by_contra hc2 <;> exact hc (by simp [hc2])
        exact List.Forall₂.cons hs2 h


theorem sameBlocks_iff_index (as bs : List ProfileBlock) :
    SameBlocks as bs ↔
      (as.length = bs.length ∧ ∀ i (h1 : i < as.length) (h2 : i < bs.length),
        as[i].StartLine = bs[i].StartLine ∧ as[i].StartCol = bs[i].StartCol) := by
  unfold SameBlocks
  rw [List.forall₂_iff_get]
  constructor
  · rintro ⟨hl, h⟩
    exact ⟨hl, fun i h1 h2 => by simpa using h i h1 h2⟩
  · rintro ⟨hl, h⟩
    exact ⟨hl, fun i h1 h2 => by simpa using h i h1 h2⟩

/-- C2 (mismatch fatality): `mergeProfBlocks as bs` returns a block list exactly
when the two lists have equal length and agree on `StartLine` and `StartCol` at
every index; it ends with the fatal error "Two block length should be same"
when the lengths differ and with "Blocks are not sorted" when the lengths are
equal and some index disagrees; a returned list is as long as both inputs. -/
theorem mergeProfBlocks_mismatch_fatal (as bs : List ProfileBlock) :
    ((∃ r, mergeProfBlocks as bs = .ok r) ↔
      (as.length = bs.length ∧ ∀ i (h1 : i < as.length) (h2 : i < bs.length),
        as[i].StartLine = bs[i].StartLine ∧ as[i].StartCol = bs[i].StartCol)) ∧
    (as.length ≠ bs.length → mergeProfBlocks as bs = .error .blockLength) ∧
    (as.length = bs.length →
      (∃ i, ∃ (h1 : i < as.length) (h2 : i < bs.length),
        as[i].StartLine ≠ bs[i].StartLine ∨ as[i].StartCol ≠ bs[i].StartCol) →
      mergeProfBlocks as bs = .error .notSorted) ∧
    (∀ r, mergeProfBlocks as bs = .ok r → r.length = as.length ∧ r.length = bs.length) := by
  refine ⟨?_, ?_, ?_, ?_⟩
  · rw [← sameBlocks_iff_index]
    constructor
    · rintro ⟨r, hr⟩
      exact ((mergeProfBlocks_ok_iff as bs r).1 hr).1
    · intro h
      exact ⟨_, (mergeProfBlocks_ok_iff as bs _).2 ⟨h, rfl⟩⟩
  · intro hlen
    unfold mergeProfBlocks
    rw [if_pos hlen]
  · rintro hlen ⟨i, h1, h2, hne⟩
    apply mergeProfBlocks_notSorted as bs hlen
    intro hs
    have := ((sameBlocks_iff_index as bs).1 hs).2 i h1 h2
    rcases hne with hne | hne
    · exact hne this.1
    · exact hne this.2
  · intro r hr
    obtain ⟨hs, rfl⟩ := (mergeProfBlocks_ok_iff as bs r).1 hr
    have := hs.length_eq
    simp [List.length_zipWith, this]

/-- A concrete instance of C2: equal lists merge, a shorter second list and a
block that starts elsewhere are both fatal. -/
theorem mergeProfBlocks_mismatch_fatal_witness :
    mergeProfBlocks [⟨1, 1, 2, 2, 1, 1⟩] [⟨1, 1, 2, 2, 1, 5⟩] = .ok [⟨1, 1, 2, 2, 1, 6⟩] ∧
    mergeProfBlocks [⟨1, 1, 2, 2, 1, 1⟩] [] = .error .blockLength ∧
    mergeProfBlocks [⟨1, 1, 2, 2, 1, 1⟩] [⟨1, 3, 2, 2, 1, 5⟩] = .error .notSorted :=
  ⟨rfl,
   (mergeProfBlocks_mismatch_fatal [⟨1, 1, 2, 2, 1, 1⟩] []).2.1 (by decide),
   (mergeProfBlocks_mismatch_fatal [⟨1, 1, 2, 2, 1, 1⟩] [⟨1, 3, 2, 2, 1, 5⟩]).2.2.1 rfl
     ⟨0, by decide, by decide, Or.inr (by decide)⟩⟩

/-! ## mergeProfs: the skipping loop and the fast paths -/

theorem skipEmptyLoop_none (pfss : List Report) :
    skipEmptyLoop pfss = none ↔ ∀ r ∈ pfss, r = [] := by
  induction pfss with
  | nil => simp [skipEmptyLoop]
  | cons r rs ih =>
    unfold skipEmptyLoop
    by_cases hr : r.length > 0
    · rw [if_pos hr]
      simp only [List.mem_cons, forall_eq_or_imp, false_iff, not_and, reduceCtorEq]
      intro h; subst h; simp at hr
    · rw [if_neg hr, ih]
      have : r = [] := by
        cases r with
        | nil => rfl
        | cons a t => simp at hr
      simp [this]

theorem skipEmpty_of_all_empty (pfss : List Report) (h : ∀ r ∈ pfss, r = []) :
    skipEmpty pfss = pfss := by
  unfold skipEmpty
  rw [(skipEmptyLoop_none pfss).2 h]

theorem skipEmpty_cons_of_ne_nil (r : Report) (rs : List Report) (h : r ≠ []) :
    skipEmpty (r :: rs) = r :: rs := by
  have : r.length > 0 := List.length_pos.2 h
  simp [skipEmpty, skipEmptyLoop, this]

theorem skipEmpty_replicate_append (N : Nat) (pfss : List Report) :
    skipEmpty (List.replicate N [] ++ pfss) =
      match skipEmptyLoop pfss with
      | some s => s
      | none => List.replicate N [] ++ pfss := by
  unfold skipEmpty
  have : skipEmptyLoop (List.replicate N [] ++ pfss) = skipEmptyLoop pfss := by
    induction N with
    | zero => simp
    | succ n ih => simp [List.replicate_succ, skipEmptyLoop, ih]
  rw [this]

theorem baseline_eq_head_skipEmpty (pfss : List Report) :
    baseline pfss = (skipEmpty pfss).headD [] := by
  induction pfss with
  | nil => simp [baseline, skipEmpty, skipEmptyLoop]
  | cons r rs ih =>
    by_cases hr : r.length > 0
    · simp [baseline, skipEmpty, skipEmptyLoop, hr]
    · have hr2 : r = [] := by
        cases r with
        | nil => rfl
        | cons a t => simp at hr
      subst hr2
      simp only [baseline, skipEmpty, skipEmptyLoop, List.length_nil, gt_iff_lt, Nat.lt_irrefl,
        if_false] at ih ⊢
      rw [ih]
      cases hs : skipEmptyLoop rs with
      | some s => simp
      | none =>
        have := (skipEmptyLoop_none rs).1 hs
        cases rs with
        | nil => simp
        | cons a t => simp [this a (List.mem_cons_self _ _)]

theorem mergeProfs_of_all_empty (h : Heap) (pfss : List Report) (hall : ∀ r ∈ pfss, r = []) :
    mergeProfs h pfss = .ok (h, []) := by
  unfold mergeProfs
  rw [skipEmpty_of_all_empty pfss hall]
  match pfss, hall with
  | [], _ => rfl
  | [r], hall =>
    have := hall r (List.mem_singleton.2 rfl)
    subst this; rfl
  | r :: s :: rest, hall =>
    have := hall r (List.mem_cons_self _ _)
    subst this
    simp [mergeProfsOuter]

theorem mergeProfs_singleton (h : Heap) (r : Report) : mergeProfs h [r] = .ok (h, r) := by
  unfold mergeProfs
  by_cases hr : r = []
  · subst hr; rfl
  · rw [skipEmpty_cons_of_ne_nil r [] hr]

/-! ## mergeProfs: what a call can change -/

theorem mergeProfsInner_frame (i : Nat) (p : Ptr) (rest : List Report) (h h1 : Heap)
    (hok : mergeProfsInner i p h rest = .ok h1) :
    h1.length = h.length ∧ (∀ q : Ptr, q ≠ p → h1[q]? = h[q]?) ∧
      (∀ q : Ptr, headerAt h1 q = headerAt h q) := by
  induction rest generalizing h with
  | nil =>
    simp only [mergeProfsInner, Except.ok.injEq] at hok
    subst hok; simp
  | cons ps rest ih =>
    unfold mergeProfsInner at hok
    split at hok
    · exact ih h hok
    · split at hok
      · exact ih h hok
      · split at hok
        · cases hok
        · rename_i q hq
          split at hok
          · cases hok
          · rename_i pr hpr
            split at hok
            · exact ih h hok
            · split at hok
              · cases hok
              · rename_i bl hbl
                obtain ⟨hl, hf, hn⟩ := ih _ hok
                refine ⟨by simpa using hl, ?_, ?_⟩
                · intro q hq
                  rw [hf q hq, List.getElem?_set_ne (Ne.symm hq)]
                · intro q
                  rw [hn q]
                  unfold headerAt
                  by_cases hqp : q = p
                  · subst hqp
                    have hlt : q < h.length := by
                      rcases Nat.lt_or_ge q h.length with hlt | hge
                      · exact hlt
                      · rw [List.getElem?_eq_none hge] at hpr; cases hpr
                    rw [List.getElem?_set_self hlt, hpr]
                    rfl
                  · rw [List.getElem?_set_ne (Ne.symm hqp)]

theorem mergeProfsOuter_frame (rest : List Report) (tl : List Ptr) (h h1 : Heap) (i : Nat)
    (ret res : List Ptr) (hok : mergeProfsOuter rest h i tl ret = .ok (h1, res)) :
    res = ret ++ tl ∧ h1.length = h.length ∧ (∀ q : Ptr, q ∉ tl → h1[q]? = h[q]?) ∧
      (∀ q : Ptr, headerAt h1 q = headerAt h q) := by
  induction tl generalizing h i ret with
  | nil =>
    simp only [mergeProfsOuter, Except.ok.injEq, Prod.mk.injEq] at hok
    obtain ⟨rfl, rfl⟩ := hok
    simp
  | cons p tl ih =>
    unfold mergeProfsOuter at hok
    split at hok
    · cases hok
    · rename_i h2 hin
      obtain ⟨hl2, hf2, hn2⟩ := mergeProfsInner_frame i p rest h h2 hin
      obtain ⟨hr, hl, hf, hn⟩ := ih h2 (i + 1) _ hok
      refine ⟨by simpa using hr, by omega, ?_, ?_⟩
      · intro q hq
        simp only [List.mem_cons, not_or] at hq
        rw [hf q hq.2, hf2 q hq.1]
      · intro q
        rw [hn q, hn2 q]

theorem mergeProfs_frame (h h1 : Heap) (pfss : List Report) (res : Report)
    (hok : mergeProfs h pfss = .ok (h1, res)) :
    res = baseline pfss ∧ h1.length = h.length ∧
      (∀ q : Ptr, q ∉ baseline pfss → h1[q]? = h[q]?) ∧
      (∀ q : Ptr, headerAt h1 q = headerAt h q) := by
  rw [baseline_eq_head_skipEmpty]
  unfold mergeProfs at hok
  split at hok
  · rename_i hs
    simp only [Except.ok.injEq, Prod.mk.injEq] at hok
    obtain ⟨rfl, rfl⟩ := hok
    simp [hs]
  · rename_i r hs
    simp only [Except.ok.injEq, Prod.mk.injEq] at hok
    obtain ⟨rfl, rfl⟩ := hok
    simp [hs]
  · rename_i head rest hne hs
    rw [hs]
    obtain ⟨hr, hl, hf, hn⟩ := mergeProfsOuter_frame rest head h h1 0 [] res hok
    exact ⟨by simpa using hr, hl, by simpa using hf, hn⟩

theorem fileNames_congr (h h1 : Heap) (r : Report)
    (hn : ∀ q : Ptr, headerAt h1 q = headerAt h q) : fileNames h1 r = fileNames h r := by
  unfold fileNames
  apply List.map_congr_left
  intro p _
  have := congrArg (Option.map Prod.fst) (hn p)
  simpa [headerAt, Option.map_map, Function.comp_def] using this

theorem loadReport_congr (h h1 : Heap) (r : Report) (hf : ∀ p ∈ r, h1[p]? = h[p]?) :
    loadReport h1 r = loadReport h r := by
  unfold loadReport
  exact List.map_congr_left hf

theorem mergeProfs_fast_heap (h h1 : Heap) (pfss : List Report) (res : Report)
    (hok : mergeProfs h pfss = .ok (h1, res)) (hfast : (skipEmpty pfss).length ≤ 1) :
    h1 = h := by
  unfold mergeProfs at hok
  split at hok
  · simp only [Except.ok.injEq, Prod.mk.injEq] at hok
    exact hok.1.symm
  · simp only [Except.ok.injEq, Prod.mk.injEq] at hok
    exact hok.1.symm
  · rename_i head rest hne hs
    rw [hs] at hfast
    cases rest with
    | nil => exact absurd rfl hne
    | cons a t => simp at hfast

/-- C5 (empty-skip property): when every report is empty `mergeProfs` returns
the empty list, and `N` empty reports followed by one non-empty report `r`
return `r` itself; in both cases without a fatal error and with the heap, hence
the profiles, blocks and counts of `r`, untouched. -/
theorem mergeProfs_empty_skip :
    (∀ (h : Heap) (pfss : List Report), (∀ r ∈ pfss, r = []) →
      mergeProfs h pfss = .ok (h, [])) ∧
    (∀ (h : Heap) (N : Nat) (r : Report), r ≠ [] →
      mergeProfs h (List.replicate N [] ++ [r]) = .ok (h, r)) := by
  refine ⟨mergeProfs_of_all_empty, ?_⟩
  intro h N r hr
  unfold mergeProfs
  rw [skipEmpty_replicate_append]
  have : r.length > 0 := List.length_pos.2 hr
  simp [skipEmptyLoop, this]

/-- A concrete instance of C5: three empty reports, and two empty reports
followed by a report with one profile. -/
theorem mergeProfs_empty_skip_witness :
    mergeProfs [⟨"a.go", "set", [⟨1, 1, 2, 2, 1, 7⟩]⟩] [[], [], []] =
        .ok ([⟨"a.go", "set", [⟨1, 1, 2, 2, 1, 7⟩]⟩], []) ∧
    mergeProfs [⟨"a.go", "set", [⟨1, 1, 2, 2, 1, 7⟩]⟩] (List.replicate 2 [] ++ [[0]]) =
        .ok ([⟨"a.go", "set", [⟨1, 1, 2, 2, 1, 7⟩]⟩], [0]) :=
  ⟨mergeProfs_empty_skip.1 _ [[], [], []] (by decide),
   mergeProfs_empty_skip.2 _ 2 [0] (by decide)⟩

/-- C6 (merge identity): `mergeProfs` applied to a list of one report returns
that report, empty or not, and leaves the heap as it is: the same profile
objects in the same order with the same blocks and counts. -/
theorem mergeProfs_identity (h : Heap) (r : Report) :
    mergeProfs h [r] = .ok (h, r) ∧
      ∀ h1 res, mergeProfs h [r] = .ok (h1, res) → loadReport h1 res = loadReport h r := by
  refine ⟨mergeProfs_singleton h r, ?_⟩
  intro h1 res hok
  rw [mergeProfs_singleton] at hok
  simp only [Except.ok.injEq, Prod.mk.injEq] at hok
  obtain ⟨rfl, rfl⟩ := hok
  rfl

/-- C8 (result ordering): when `mergeProfs` returns, the returned list is the
baseline (the first non-empty report) itself, so the file names of the result
are the file names of the baseline: same length, same order; a name that is not
in the baseline is not in the result. -/
theorem mergeProfs_result_order (h h1 : Heap) (pfss : List Report) (res : Report)
    (hok : mergeProfs h pfss = .ok (h1, res)) :
    fileNames h1 res = fileNames h (baseline pfss) ∧
      res.length = (baseline pfss).length ∧
      (∀ name, name ∈ fileNames h1 res → name ∈ fileNames h (baseline pfss)) := by
  obtain ⟨hr, _, _, hn⟩ := mergeProfs_frame h h1 pfss res hok
  subst hr
  have := fileNames_congr h h1 (baseline pfss) hn
  exact ⟨this, rfl, fun name hname => this ▸ hname⟩

/-- A concrete instance of C8: the baseline lists `a.go`, `b.go`; a later
report lists `c.go`, `b.go`; the result lists `a.go`, `b.go`. -/
theorem mergeProfs_result_order_witness :
    fileNames
        [⟨"a.go", "set", [⟨1, 1, 2, 2, 1, 1⟩]⟩, ⟨"b.go", "set", [⟨1, 1, 2, 2, 1, 2⟩]⟩,
         ⟨"c.go", "set", [⟨1, 1, 2, 2, 1, 4⟩]⟩, ⟨"b.go", "set", [⟨1, 1, 2, 2, 1, 8⟩]⟩]
        [0, 1] = [some "a.go", some "b.go"] :=
  (mergeProfs_result_order
    [⟨"a.go", "set", [⟨1, 1, 2, 2, 1, 1⟩]⟩, ⟨"b.go", "set", [⟨1, 1, 2, 2, 1, 2⟩]⟩,
     ⟨"c.go", "set", [⟨1, 1, 2, 2, 1, 4⟩]⟩, ⟨"b.go", "set", [⟨1, 1, 2, 2, 1, 8⟩]⟩]
    [⟨"a.go", "set", [⟨1, 1, 2, 2, 1, 1⟩]⟩, ⟨"b.go", "set", [⟨1, 1, 2, 2, 1, 10⟩]⟩,
     ⟨"c.go", "set", [⟨1, 1, 2, 2, 1, 4⟩]⟩, ⟨"b.go", "set", [⟨1, 1, 2, 2, 1, 8⟩]⟩]
    [[], [0, 1], [2, 3]] [0, 1] (by decide)).1.trans (by decide)

/-- C10, as stated, fails: merging two one-profile reports leaves the baseline
profile object (address 0) with the merged count 3 instead of its count 1. -/
theorem mergeProfs_mutates_baseline :
    mergeProfs [⟨"a.go", "set", [⟨1, 1, 2, 2, 1, 1⟩]⟩, ⟨"a.go", "set", [⟨1, 1, 2, 2, 1, 2⟩]⟩]
        [[0], [1]] =
      .ok ([⟨"a.go", "set", [⟨1, 1, 2, 2, 1, 3⟩]⟩, ⟨"a.go", "set", [⟨1, 1, 2, 2, 1, 2⟩]⟩], [0]) ∧
    loadReport [⟨"a.go", "set", [⟨1, 1, 2, 2, 1, 3⟩]⟩, ⟨"a.go", "set", [⟨1, 1, 2, 2, 1, 2⟩]⟩] [0] ≠
      loadReport [⟨"a.go", "set", [⟨1, 1, 2, 2, 1, 1⟩]⟩, ⟨"a.go", "set", [⟨1, 1, 2, 2, 1, 2⟩]⟩] [0] := by
  constructor
  · decide
  · decide

/-! ## toSF: the coverage array -/

theorem accum_cons (v : Option Int) (c : Int) (cs : List Int) :
    accum v (c :: cs) = some ((c :: cs).foldl goAdd (asInt v)) := by
  induction cs generalizing v c with
  | nil => simp [accum]
  | cons d ds ih =>
    rw [accum, ih]
    simp [asInt]

theorem accum_none (c : Int) (cs : List Int) :
    accum none (c :: cs) = some (wrapInt (c :: cs).sum) := by
  rw [accum_cons, foldl_goAdd_cons]
  simp [asInt]

theorem touchLine_length (cov cov1 : List (Option Int)) (i c : Int)
    (hok : touchLine cov i c = .ok cov1) : cov1.length = cov.length := by
  unfold touchLine at hok
  split at hok
  · simp only [Except.ok.injEq] at hok
    subst hok; simp
  · cases hok

theorem lineLoop_length (c : Int) (k : Nat) (i : Int) (cov cov1 : List (Option Int))
    (hok : lineLoop c k i cov = .ok cov1) : cov1.length = cov.length := by
  induction k generalizing i cov with
  | zero =>
    simp only [lineLoop, Except.ok.injEq] at hok
    subst hok; rfl
  | succ k ih =>
    unfold lineLoop at hok
    split at hok
    · cases hok
    · rename_i cov2 h2
      rw [ih _ _ hok, touchLine_length _ _ _ _ h2]

theorem blocksLoop_length (blocks : List ProfileBlock) (cov cov1 : List (Option Int))
    (hok : blocksLoop cov blocks = .ok cov1) : cov1.length = cov.length := by
  induction blocks generalizing cov with
  | nil =>
    simp only [blocksLoop, Except.ok.injEq] at hok
    subst hok; rfl
  | cons b bs ih =>
    unfold blocksLoop at hok
    split at hok
    · cases hok
    · rename_i cov2 h2
      rw [ih _ hok]
      exact lineLoop_length _ _ _ _ _ h2

theorem lineLoop_spec (c : Int) (k : Nat) (i : Int) (cov : List (Option Int))
    (hr : k = 0 ∨ (1 ≤ i ∧ i + k - 1 ≤ cov.length)) :
    ∃ cov1, lineLoop c k i cov = .ok cov1 ∧ cov1.length = cov.length ∧
      ∀ m : Nat, cov1[m]?.join =
        if i ≤ (m : Int) + 1 ∧ (m : Int) + 1 < i + k then some (goAdd (asInt cov[m]?.join) c)
        else cov[m]?.join := by
  induction k generalizing i cov with
  | zero =>
    refine ⟨cov, rfl, rfl, ?_⟩
    intro m
    rw [if_neg]
    push_cast
    omega
  | succ k ih =>
    have hr1 : 1 ≤ i ∧ i + (k + 1 : Nat) - 1 ≤ cov.length := by
      rcases hr with hr | hr
      · omega
      · exact hr
    have hidx : 0 ≤ i - 1 ∧ i - 1 < cov.length := by
      push_cast at hr1; omega
    have hlt : (i - 1).toNat < cov.length := by omega
    unfold lineLoop touchLine
    rw [if_pos hidx]
    simp only []
    obtain ⟨cov1, hok, hlen, hm⟩ := ih (i + 1)
      (cov.set (i - 1).toNat (some (goAdd (asInt (cov[(i - 1).toNat]?.join)) c)))
      (by
        right
        push_cast at hr1
        simp only [List.length_set]
        omega)
    refine ⟨cov1, hok, by simpa using hlen, ?_⟩
    intro m
    rw [hm m]
    by_cases hmi : m = (i - 1).toNat
    · subst hmi
      rw [if_neg (by omega), if_pos (by push_cast; omega), List.getElem?_set_self hlt]
      rfl
    · rw [List.getElem?_set_ne (Ne.symm hmi)]
      by_cases hc : i + 1 ≤ (m : Int) + 1 ∧ (m : Int) + 1 < i + 1 + k
      · rw [if_pos hc, if_pos (by push_cast; omega)]
      · rw [if_neg hc, if_neg (by push_cast; omega)]

theorem blockLoop_spec (cov : List (Option Int)) (b : ProfileBlock)
    (hr : b.StartLine ≤ b.EndLine → 1 ≤ b.StartLine ∧ b.EndLine ≤ cov.length) :
    ∃ cov1, blockLoop cov b = .ok cov1 ∧ cov1.length = cov.length ∧
      ∀ m : Nat, cov1[m]?.join =
        if Covers b ((m : Int) + 1) then some (goAdd (asInt cov[m]?.join) b.Count)
        else cov[m]?.join := by
  unfold blockLoop
  obtain ⟨cov1, hok, hlen, hm⟩ := lineLoop_spec b.Count
    (b.EndLine - b.StartLine + 1).toNat b.StartLine cov
    (by
      by_cases hle : b.StartLine ≤ b.EndLine
      · right
        have := hr hle
        omega
      · left
        omega)
  refine ⟨cov1, hok, hlen, ?_⟩
  intro m
  rw [hm m]
  unfold Covers
  by_cases hc : b.StartLine ≤ (m : Int) + 1 ∧ (m : Int) + 1 ≤ b.EndLine
  · rw [if_pos hc, if_pos (by omega)]
  · rw [if_neg hc, if_neg (by omega)]

theorem blocksLoop_spec (blocks : List ProfileBlock) (cov : List (Option Int))
    (hr : InRange cov.length blocks) :
    ∃ cov1, blocksLoop cov blocks = .ok cov1 ∧ cov1.length = cov.length ∧
      ∀ m : Nat, cov1[m]?.join = accum cov[m]?.join (coveringCounts blocks ((m : Int) + 1)) := by
  induction blocks generalizing cov with
  | nil =>
    exact ⟨cov, rfl, rfl, fun m => by simp [coveringCounts, accum]⟩
  | cons b bs ih =>
    obtain ⟨cov1, hok1, hlen1, hm1⟩ := blockLoop_spec cov b (hr b (List.mem_cons_self _ _))
    obtain ⟨cov2, hok2, hlen2, hm2⟩ := ih cov1 (by
      intro x hx
      rw [hlen1]
      exact hr x (List.mem_cons_of_mem _ hx))
    refine ⟨cov2, ?_, by rw [hlen2, hlen1], ?_⟩
    · unfold blocksLoop
      rw [hok1]
      exact hok2
    · intro m
      rw [hm2 m, hm1 m]
      unfold coveringCounts Covers
      by_cases hc : b.StartLine ≤ (m : Int) + 1 ∧ (m : Int) + 1 ≤ b.EndLine
      · rw [if_pos hc, List.filter_cons_of_pos (by simpa using hc)]
        simp [accum]
      · rw [if_neg hc, List.filter_cons_of_neg (by simpa using hc)]

theorem newCoverage_getElem? (fb : List Nat) (m : Nat) : (newCoverage fb)[m]?.join = none := by
  unfold newCoverage
  by_cases hm : m < 1 + fb.count newline
  · rw [List.getElem?_eq_getElem (by simpa using hm)]
    simp
  · rw [List.getElem?_eq_none (by simpa using hm)]
    rfl

theorem buildCoverage_spec (fb : List Nat) (blocks : List ProfileBlock)
    (hr : InRange (1 + fb.count newline) blocks) :
    ∃ cov, buildCoverage fb blocks = .ok cov ∧ cov.length = 1 + fb.count newline ∧
      ∀ m : Nat, m < 1 + fb.count newline →
        cov[m]? = some (accum none (coveringCounts blocks ((m : Int) + 1))) := by
  have hlen0 : (newCoverage fb).length = 1 + fb.count newline := by simp [newCoverage]
  obtain ⟨cov, hok, hlen, hm⟩ := blocksLoop_spec blocks (newCoverage fb) (by rw [hlen0]; exact hr)
  refine ⟨cov, hok, by rw [hlen, hlen0], ?_⟩
  intro m hmlt
  have h1 := hm m
  rw [newCoverage_getElem?] at h1
  rw [← h1, List.getElem?_eq_getElem (by omega)]
  rfl

theorem coveringCounts_eq_nil (blocks : List ProfileBlock) (l : Int) :
    coveringCounts blocks l = [] ↔ ¬ ∃ b ∈ blocks, Covers b l := by
  unfold coveringCounts Covers
  simp [List.filter_eq_nil_iff]

theorem toSFLoop_coverage_length (findFile : String → Option String)
    (readFile : String → Option (List Nat)) (getName : String → String) (h : Heap)
    (profs : List Ptr) (rv res : List SourceFile)
    (hrv : ∀ sf ∈ rv, sf.Coverage.length = 1 + sf.Source.count newline)
    (hok : toSFLoop findFile readFile getName h profs rv = .ok res) :
    ∀ sf ∈ res, sf.Coverage.length = 1 + sf.Source.count newline := by
  induction profs generalizing rv with
  | nil =>
    simp only [toSFLoop, Except.ok.injEq] at hok
    subst hok; exact hrv
  | cons p ps ih =>
    unfold toSFLoop at hok
    split at hok
    · cases hok
    · split at hok
      · cases hok
      · split at hok
        · cases hok
        · rename_i fb hfb
          split at hok
          · cases hok
          · rename_i cov hcov
            apply ih _ _ hok
            intro sf hsf
            rcases List.mem_append.1 hsf with hsf | hsf
            · exact hrv sf hsf
            · rw [List.mem_singleton.1 hsf]
              have := blocksLoop_length _ _ _ hcov
              simpa [newCoverage] using this

/-- C3 (line expansion correctness): for a file of `n = 1 + newlines` lines and
blocks within the lines `1..n`, `toSF` builds a coverage array of `n` entries
in which the entry of line `l` is "not executable" exactly when no block covers
`l`; a line covered only by blocks of count 0 holds the count 0. -/
theorem buildCoverage_line_expansion (fb : List Nat) (blocks : List ProfileBlock)
    (hin : InRange (1 + fb.count newline) blocks) :
    ∃ cov, buildCoverage fb blocks = .ok cov ∧ cov.length = 1 + fb.count newline ∧
      ∀ l : Nat, 1 ≤ l → l ≤ 1 + fb.count newline →
        (cov[l - 1]? = some none ↔ ¬ ∃ b ∈ blocks, Covers b (l : Int)) ∧
        ((∃ b ∈ blocks, Covers b (l : Int)) →
          (∀ b ∈ blocks, Covers b (l : Int) → b.Count = 0) → cov[l - 1]? = some (some 0)) := by
  obtain ⟨cov, hok, hlen, hm⟩ := buildCoverage_spec fb blocks hin
  refine ⟨cov, hok, hlen, ?_⟩
  intro l h1 h2
  have hl : ((l - 1 : Nat) : Int) + 1 = (l : Int) := by omega
  have hcov := hm (l - 1) (by omega)
  rw [hl] at hcov
  rw [hcov, ← coveringCounts_eq_nil]
  constructor
  · cases hcs : coveringCounts blocks (l : Int) with
    | nil => simp [accum]
    | cons c cs => simp [accum_none]
  · intro hex hzero
    cases hcs : coveringCounts blocks (l : Int) with
    | nil => exact absurd hex ((coveringCounts_eq_nil blocks l).1 hcs)
    | cons c cs =>
      rw [accum_none]
      have hall : ∀ x ∈ c :: cs, x = 0 := by
        intro x hx
        rw [← hcs] at hx
        unfold coveringCounts at hx
        obtain ⟨b, hb, rfl⟩ := List.mem_map.1 hx
        rw [List.mem_filter] at hb
        exact hzero b hb.1 (by simpa [Covers] using hb.2)
      have hsum : (c :: cs).sum = 0 := List.sum_eq_zero hall
      rw [hsum]
      rfl

/-- The example of C3: a file of ten lines (nine newlines) and one block over
the lines 3-5 with count 4. -/
theorem buildCoverage_line_expansion_witness :
    (∃ cov, buildCoverage (List.replicate 9 10) [⟨3, 1, 5, 2, 1, 4⟩] = .ok cov ∧
      cov.length = 1 + (List.replicate 9 10).count newline ∧
      ∀ l : Nat, 1 ≤ l → l ≤ 1 + (List.replicate 9 10).count newline →
        (cov[l - 1]? = some none ↔
          ¬ ∃ b ∈ [(⟨3, 1, 5, 2, 1, 4⟩ : ProfileBlock)], Covers b (l : Int)) ∧
        ((∃ b ∈ [(⟨3, 1, 5, 2, 1, 4⟩ : ProfileBlock)], Covers b (l : Int)) →
          (∀ b ∈ [(⟨3, 1, 5, 2, 1, 4⟩ : ProfileBlock)], Covers b (l : Int) → b.Count = 0) →
          cov[l - 1]? = some (some 0))) ∧
    buildCoverage (List.replicate 9 10) [⟨3, 1, 5, 2, 1, 4⟩] =
      .ok [none, none, some 4, some 4, some 4, none, none, none, none, none] :=
  ⟨buildCoverage_line_expansion (List.replicate 9 10) [⟨3, 1, 5, 2, 1, 4⟩] (by decide),
   by decide⟩

/-- C4 (overlap accumulation): for blocks within the lines `1..n`, the entry of
every line `l` that some block covers is the sum, in Go `int` arithmetic, of the
counts of all blocks that cover `l`, with multiplicity; it is the exact sum
whenever that sum fits a 64-bit `int`. -/
theorem buildCoverage_overlap (fb : List Nat) (blocks : List ProfileBlock)
    (hin : InRange (1 + fb.count newline) blocks) (l : Nat) (h1 : 1 ≤ l)
    (h2 : l ≤ 1 + fb.count newline) (hc : ∃ b ∈ blocks, Covers b (l : Int)) :
    ∃ cov, buildCoverage fb blocks = .ok cov ∧
      cov[l - 1]? = some (some (wrapInt (coveringCounts blocks (l : Int)).sum)) ∧
      (-9223372036854775808 ≤ (coveringCounts blocks (l : Int)).sum →
        (coveringCounts blocks (l : Int)).sum ≤ 9223372036854775807 →
        cov[l - 1]? = some (some (coveringCounts blocks (l : Int)).sum)) := by
  obtain ⟨cov, hok, hlen, hm⟩ := buildCoverage_spec fb blocks hin
  have hl : ((l - 1 : Nat) : Int) + 1 = (l : Int) := by omega
  have hcov := hm (l - 1) (by omega)
  rw [hl] at hcov
  have hne : coveringCounts blocks (l : Int) ≠ [] := by
    intro h
    exact (coveringCounts_eq_nil blocks l).1 h hc
  have hentry : cov[l - 1]? = some (some (wrapInt (coveringCounts blocks (l : Int)).sum)) := by
    rw [hcov]
    cases hcs : coveringCounts blocks (l : Int) with
    | nil => exact absurd hcs hne
    | cons c cs => rw [accum_none]
  refine ⟨cov, hok, hentry, ?_⟩
  intro hlo hhi
  rw [hentry, wrapInt_of_range _ hlo hhi]

/-- The example of C4: two blocks that both cover line 5, with counts 2 and 3,
give line 5 the count 5. -/
theorem buildCoverage_overlap_witness :
    ∃ cov, buildCoverage (List.replicate 9 10) [⟨3, 1, 5, 2, 1, 2⟩, ⟨5, 2, 7, 1, 1, 3⟩] = .ok cov ∧
      cov[5 - 1]? = some (some 5) := by
  obtain ⟨cov, hok, _, hsum⟩ := buildCoverage_overlap (List.replicate 9 10)
    [⟨3, 1, 5, 2, 1, 2⟩, ⟨5, 2, 7, 1, 1, 3⟩] (by decide) 5 (by decide) (by decide)
    ⟨⟨3, 1, 5, 2, 1, 2⟩, by decide, by decide⟩
  exact ⟨cov, hok, hsum (by decide) (by decide)⟩

/-- C9 (coverage array length): every record that `toSF` returns has a coverage
array of exactly `1 +` the number of newline bytes of its source text; the
array is allocated with that length, the block loop never changes it, and for
blocks within the lines of the file the array is indeed built. -/
theorem toSF_coverage_length :
    (∀ (findFile : String → Option String) (readFile : String → Option (List Nat))
        (getName : String → String) (h : Heap) (profs : List Ptr) (rv : List SourceFile),
        toSF findFile readFile getName h profs = .ok rv →
        ∀ sf ∈ rv, sf.Coverage.length = 1 + sf.Source.count newline) ∧
    (∀ fb : List Nat, (newCoverage fb).length = 1 + fb.count newline) ∧
    (∀ (fb : List Nat) (blocks : List ProfileBlock) (cov : List (Option Int)),
        buildCoverage fb blocks = .ok cov → cov.length = 1 + fb.count newline) ∧
    (∀ (fb : List Nat) (blocks : List ProfileBlock), InRange (1 + fb.count newline) blocks →
        ∃ cov, buildCoverage fb blocks = .ok cov ∧ cov.length = 1 + fb.count newline) := by
  refine ⟨?_, ?_, ?_, ?_⟩
  · intro findFile readFile getName h profs rv hok
    exact toSFLoop_coverage_length findFile readFile getName h profs [] rv (by simp) hok
  · intro fb
    simp [newCoverage]
  · intro fb blocks cov hok
    have := blocksLoop_length _ _ _ hok
    simpa [newCoverage] using this
  · intro fb blocks hin
    obtain ⟨cov, hok, hlen, _⟩ := buildCoverage_spec fb blocks hin
    exact ⟨cov, hok, hlen⟩

/-- A concrete instance of C9: a file with two newlines and a block over the
lines 2-3; `toSF` returns one record with three coverage entries. -/
theorem toSF_coverage_length_witness :
    ∀ sf ∈ [(⟨"a.go", [97, 10, 98, 10, 99], [none, some 1, some 1]⟩ : SourceFile)],
      sf.Coverage.length = 1 + sf.Source.count newline :=
  toSF_coverage_length.1 (fun _ => some "/src/a.go") (fun _ => some [97, 10, 98, 10, 99])
    (fun _ => "a.go") [⟨"m/a.go", "set", [⟨2, 1, 3, 1, 1, 1⟩]⟩] [0]
    [⟨"a.go", [97, 10, 98, 10, 99], [none, some 1, some 1]⟩] (by decide)

/-! ## mergeProfs: the merging loops -/

theorem set_eq_self_of_getElem? (h : Heap) (p : Ptr) (P : Profile) (hP : h[p]? = some P) :
    h.set p P = h := by
  apply List.ext_getElem?
  intro q
  by_cases hq : p = q
  · subst hq
    have hlt : p < h.length := by
      rcases Nat.lt_or_ge p h.length with hlt | hge
      · exact hlt
      · rw [List.getElem?_eq_none hge] at hP; cases hP
    rw [List.getElem?_set_self hlt, hP]
  · rw [List.getElem?_set_ne hq]

theorem lt_length_of_getElem? (h : Heap) (p : Ptr) (P : Profile) (hP : h[p]? = some P) :
    p < h.length := by
  rcases Nat.lt_or_ge p h.length with hlt | hge
  · exact hlt
  · rw [List.getElem?_eq_none hge] at hP; cases hP

theorem mem_of_getElem?_eq_some (ps : List Ptr) (i : Nat) (q : Ptr) (hq : ps[i]? = some q) :
    q ∈ ps := by
  obtain ⟨hlt, rfl⟩ := List.getElem?_eq_some_iff.1 hq
  exact List.getElem_mem hlt

theorem selPtr_congr (h h1 : Heap) (name : String) (i : Nat) (rest : List Report)
    (hsame : ∀ ps ∈ rest, ∀ q ∈ ps, h1[q]? = h[q]?) :
    selPtr h1 name i rest = selPtr h name i rest := by
  induction rest with
  | nil => rfl
  | cons ps rest ih =>
    have hrest := ih (fun ps1 hps1 => hsame ps1 (List.mem_cons_of_mem _ hps1))
    have hps : ps[i]?.bind (fun q => h1[q]?) = ps[i]?.bind (fun q => h[q]?) := by
      cases hq : ps[i]? with
      | none => rfl
      | some q =>
        exact hsame ps (List.mem_cons_self _ _) q (mem_of_getElem?_eq_some ps i q hq)
    unfold selPtr at hrest ⊢
    simp only [List.filterMap_cons, hps, hrest]

theorem selPtr_cons_none (h : Heap) (name : String) (i : Nat) (ps : Report) (rest : List Report)
    (hnone : ps[i]? = none) : selPtr h name i (ps :: rest) = selPtr h name i rest := by
  unfold selPtr
  simp [List.filterMap_cons, hnone]

theorem selPtr_cons_some (h : Heap) (name : String) (i : Nat) (ps : Report) (rest : List Report)
    (Q : Profile) (hQ : ps[i]?.bind (fun q => h[q]?) = some Q) :
    selPtr h name i (ps :: rest) =
      if Q.FileName = name then Q.Blocks :: selPtr h name i rest else selPtr h name i rest := by
  unfold selPtr
  simp only [List.filterMap_cons, hQ]
  split <;> simp_all

theorem mergeProfsInner_eq (i : Nat) (p : Ptr) (rest : List Report) (h : Heap) (P : Profile)
    (hP : h[p]? = some P)
    (hv : ∀ ps ∈ rest, ∀ q ∈ ps, q ≠ p ∧ ∃ Q, h[q]? = some Q) :
    mergeProfsInner i p h rest =
      (List.foldlM mergeProfBlocks P.Blocks (selPtr h P.FileName i rest)).map
        (fun B => h.set p { P with Blocks := B }) := by
  induction rest generalizing h P with
  | nil =>
    simp only [mergeProfsInner, selPtr, List.filterMap_nil, List.foldlM_nil]
    show Except.ok h = Except.ok (h.set p { P with Blocks := P.Blocks })
    rw [set_eq_self_of_getElem? h p _ hP]
  | cons ps rest ih =>
    have hv1 : ∀ ps1 ∈ rest, ∀ q ∈ ps1, q ≠ p ∧ ∃ Q, h[q]? = some Q :=
      fun ps1 hps1 => hv ps1 (List.mem_cons_of_mem _ hps1)
    unfold mergeProfsInner
    by_cases h0 : ps.length = 0
    · rw [if_pos h0, selPtr_cons_none h _ i ps rest (List.getElem?_eq_none (by omega))]
      exact ih h P hP hv1
    · rw [if_neg h0]
      by_cases h1 : ps.length < i + 1
      · rw [if_pos h1, selPtr_cons_none h _ i ps rest (List.getElem?_eq_none (by omega))]
        exact ih h P hP hv1
      · rw [if_neg h1]
        have hlt : i < ps.length := by omega
        have hq : ps[i]? = some ps[i] := List.getElem?_eq_getElem hlt
        obtain ⟨hqp, Q, hQ⟩ := hv ps (List.mem_cons_self _ _) ps[i] (List.getElem_mem hlt)
        have hbind : ps[i]?.bind (fun q => h[q]?) = some Q := by
          rw [hq]; exact hQ
        rw [selPtr_cons_some h _ i ps rest Q hbind, hbind, hP]
        simp only []
        by_cases hname : Q.FileName = P.FileName
        · rw [if_neg (by simpa using hname), if_pos hname, List.foldlM_cons]
          cases hm : mergeProfBlocks P.Blocks Q.Blocks with
          | error e => rfl
          | ok bl =>
            simp only []
            have hlen := lt_length_of_getElem? h p P hP
            have hP1 : (h.set p { P with Blocks := bl })[p]? = some { P with Blocks := bl } :=
              List.getElem?_set_self hlen
            have hsame : ∀ ps1 ∈ rest, ∀ q ∈ ps1,
                (h.set p { P with Blocks := bl })[q]? = h[q]? := by
              intro ps1 hps1 q hq1
              exact List.getElem?_set_ne (Ne.symm (hv1 ps1 hps1 q hq1).1)
            have hv2 : ∀ ps1 ∈ rest, ∀ q ∈ ps1,
                q ≠ p ∧ ∃ Q, (h.set p { P with Blocks := bl })[q]? = some Q := by
              intro ps1 hps1 q hq1
              refine ⟨(hv1 ps1 hps1 q hq1).1, ?_⟩
              rw [hsame ps1 hps1 q hq1]
              exact (hv1 ps1 hps1 q hq1).2
            rw [ih _ _ hP1 hv2, selPtr_congr h _ _ i rest hsame]
            show _ = Except.map _ (List.foldlM mergeProfBlocks bl _)
            simp only [List.set_set]
        · rw [if_pos (by simpa using hname), if_neg hname]
          exact ih h P hP hv1

theorem mergeProfsOuter_spec (rest : List Report) (tl : List Ptr) (h : Heap) (i : Nat)
    (ret : List Ptr) (hnd : tl.Nodup) (hvT : ∀ p ∈ tl, ∃ P, h[p]? = some P)
    (hvR : ∀ ps ∈ rest, ∀ q ∈ ps, q ∉ tl ∧ ∃ Q, h[q]? = some Q) :
    (∀ h1 res, mergeProfsOuter rest h i tl ret = .ok (h1, res) →
      res = ret ++ tl ∧
      ∀ k p, tl[k]? = some p → ∃ P B, h[p]? = some P ∧
        List.foldlM mergeProfBlocks P.Blocks (selPtr h P.FileName (i + k) rest) = .ok B ∧
        h1[p]? = some { P with Blocks := B }) ∧
    ((∀ k p P, tl[k]? = some p → h[p]? = some P →
        ∃ B, List.foldlM mergeProfBlocks P.Blocks (selPtr h P.FileName (i + k) rest) = .ok B) →
      ∃ h1 res, mergeProfsOuter rest h i tl ret = .ok (h1, res)) := by
  induction tl generalizing h i ret with
  | nil =>
    refine ⟨?_, fun _ => ⟨h, ret, rfl⟩⟩
    intro h1 res hok
    simp only [mergeProfsOuter, Except.ok.injEq, Prod.mk.injEq] at hok
    obtain ⟨rfl, rfl⟩ := hok
    exact ⟨by simp, fun k p hk => by simp at hk⟩
  | cons p tl ih =>
    obtain ⟨P, hP⟩ := hvT p (List.mem_cons_self _ _)
    have hptl : p ∉ tl := (List.nodup_cons.1 hnd).1
    have hvA : ∀ ps ∈ rest, ∀ q ∈ ps, q ≠ p ∧ ∃ Q, h[q]? = some Q := by
      intro ps hps q hq
      obtain ⟨hnot, hQ⟩ := hvR ps hps q hq
      exact ⟨fun hqp => hnot (hqp ▸ List.mem_cons_self _ _), hQ⟩
    have hinner := mergeProfsInner_eq i p rest h P hP hvA
    cases hfold : List.foldlM mergeProfBlocks P.Blocks (selPtr h P.FileName i rest) with
    | error e =>
      rw [hfold] at hinner
      constructor
      · intro h1 res hok
        unfold mergeProfsOuter at hok
        rw [hinner] at hok
        cases hok
      · intro hall
        obtain ⟨B, hB⟩ := hall 0 p P (by simp) hP
        rw [Nat.add_zero, hfold] at hB
        cases hB
    | ok B0 =>
      rw [hfold] at hinner
      have hstep : mergeProfsOuter rest h i (p :: tl) ret =
          mergeProfsOuter rest (h.set p { P with Blocks := B0 }) (i + 1) tl (ret ++ [p]) := by
        conv_lhs => unfold mergeProfsOuter
        rw [hinner]
        rfl
      have hoff : ∀ q : Ptr, q ≠ p → (h.set p { P with Blocks := B0 })[q]? = h[q]? :=
        fun q hq => List.getElem?_set_ne (Ne.symm hq)
      have hsel : ∀ (name : String) (j : Nat),
          selPtr (h.set p { P with Blocks := B0 }) name j rest = selPtr h name j rest :=
        fun name j => selPtr_congr h _ name j rest
          (fun ps hps q hq => hoff q (hvA ps hps q hq).1)
      have hnetl : ∀ q ∈ tl, q ≠ p := fun q hq hqp => hptl (hqp ▸ hq)
      obtain ⟨ih1, ih2⟩ := ih (h.set p { P with Blocks := B0 }) (i + 1) (ret ++ [p])
        (List.nodup_cons.1 hnd).2
        (by
          intro q hq
          rw [hoff q (hnetl q hq)]
          exact hvT q (List.mem_cons_of_mem _ hq))
        (by
          intro ps hps q hq
          obtain ⟨hnot, hQ⟩ := hvR ps hps q hq
          refine ⟨fun hmem => hnot (List.mem_cons_of_mem _ hmem), ?_⟩
          rw [hoff q (hvA ps hps q hq).1]
          exact hQ)
      constructor
      · intro h1 res hok
        rw [hstep] at hok
        obtain ⟨hres, hidx⟩ := ih1 h1 res hok
        refine ⟨by simpa using hres, ?_⟩
        intro k q hk
        cases k with
        | zero =>
          simp only [List.getElem?_cons_zero, Option.some.injEq] at hk
          subst hk
          refine ⟨P, B0, hP, by simpa using hfold, ?_⟩
          have hframe := (mergeProfsOuter_frame rest tl _ h1 (i + 1) _ res hok).2.2.1 p hptl
          rw [hframe]
          exact List.getElem?_set_self (lt_length_of_getElem? h p P hP)
        | succ k =>
          simp only [List.getElem?_cons_succ] at hk
          obtain ⟨P1, B, hP1, hB, hres1⟩ := ih1 h1 res hok |>.2 k q hk
          have hq : q ∈ tl := mem_of_getElem?_eq_some tl k q hk
          rw [hoff q (hnetl q hq)] at hP1
          rw [hsel] at hB
          refine ⟨P1, B, hP1, ?_, hres1⟩
          have : i + (k + 1) = i + 1 + k := by omega
          rw [this]
          exact hB
      · intro hall
        rw [hstep]
        apply ih2
        intro k q Q hk hQ
        have hq : q ∈ tl := mem_of_getElem?_eq_some tl k q hk
        rw [hoff q (hnetl q hq)] at hQ
        obtain ⟨B, hB⟩ := hall (k + 1) q Q (by simpa using hk) hQ
        refine ⟨B, ?_⟩
        rw [hsel]
        have : i + 1 + k = i + (k + 1) := by omega
        rw [this]
        exact hB

/-! ## mergeProfs: from addresses to values -/

theorem represents_cons (h : Heap) (head : Report) (rest : List Report) (base : List Profile)
    (restV : List (List Profile)) :
    Represents h (head :: rest) (base :: restV) ↔
      loadReport h head = base.map some ∧ Represents h rest restV := by
  unfold Represents
  simp

theorem loadReport_index (h : Heap) (r : Report) (vs : List Profile)
    (hl : loadReport h r = vs.map some) (k : Nat) :
    (∀ p, r[k]? = some p → ∃ P, vs[k]? = some P ∧ h[p]? = some P) ∧
    (∀ P, vs[k]? = some P → ∃ p, r[k]? = some p ∧ h[p]? = some P) := by
  have hk := congrArg (fun l => l[k]?) hl
  simp only [loadReport, List.getElem?_map] at hk
  constructor
  · intro p hp
    rw [hp] at hk
    cases hv : vs[k]? with
    | none => rw [hv] at hk; cases hk
    | some P =>
      rw [hv] at hk
      simp only [Option.map_some'] at hk
      exact ⟨P, rfl, Option.some.inj hk⟩
  · intro P hv
    rw [hv] at hk
    cases hp : r[k]? with
    | none => rw [hp] at hk; cases hk
    | some p =>
      rw [hp] at hk
      simp only [Option.map_some'] at hk
      exact ⟨p, rfl, Option.some.inj hk⟩

theorem loadReport_bind (h : Heap) (r : Report) (vs : List Profile)
    (hl : loadReport h r = vs.map some) (k : Nat) :
    r[k]?.bind (fun q => h[q]?) = vs[k]? := by
  cases hp : r[k]? with
  | none =>
    cases hv : vs[k]? with
    | none => rfl
    | some P =>
      obtain ⟨p, hp1, _⟩ := (loadReport_index h r vs hl k).2 P hv
      rw [hp] at hp1; cases hp1
  | some p =>
    obtain ⟨P, hv, hP⟩ := (loadReport_index h r vs hl k).1 p hp
    rw [hv]
    exact hP

theorem loadReport_valid (h : Heap) (r : Report) (vs : List Profile)
    (hl : loadReport h r = vs.map some) : ∀ q ∈ r, ∃ Q, h[q]? = some Q := by
  intro q hq
  obtain ⟨k, hk, rfl⟩ := List.getElem_of_mem hq
  obtain ⟨P, _, hP⟩ := (loadReport_index h r vs hl k).1 r[k] (List.getElem?_eq_getElem hk)
  exact ⟨P, hP⟩

theorem represents_valid (h : Heap) (rest : List Report) (restV : List (List Profile))
    (hrep : Represents h rest restV) : ∀ ps ∈ rest, ∀ q ∈ ps, ∃ Q, h[q]? = some Q := by
  induction rest generalizing restV with
  | nil => intro ps hps; cases hps
  | cons r rs ih =>
    cases restV with
    | nil => simp [Represents] at hrep
    | cons v vs =>
      rw [represents_cons] at hrep
      intro ps hps
      rcases List.mem_cons.1 hps with rfl | hps
      · exact loadReport_valid h ps v hrep.1
      · exact ih vs hrep.2 ps hps

theorem selPtr_eq_selected (h : Heap) (name : String) (i : Nat) (rest : List Report)
    (restV : List (List Profile)) (hrep : Represents h rest restV) :
    selPtr h name i rest = selected name i restV := by
  induction rest generalizing restV with
  | nil =>
    cases restV with
    | nil => rfl
    | cons v vs => simp [Represents] at hrep
  | cons r rs ih =>
    cases restV with
    | nil => simp [Represents] at hrep
    | cons v vs =>
      rw [represents_cons] at hrep
      have hb := loadReport_bind h r v hrep.1 i
      have hrec := ih vs hrep.2
      unfold selPtr selected at hrec ⊢
      simp only [List.filterMap_cons, hb, hrec]

theorem mergeProfs_general (h : Heap) (head : Report) (rest : List Report)
    (base : List Profile) (restV : List (List Profile))
    (hskip : skipEmpty (head :: rest) = head :: rest) (hrest : rest ≠ [])
    (hrep : Represents h (head :: rest) (base :: restV)) (hna : NoAlias (head :: rest)) :
    (∀ h1 res, mergeProfs h (head :: rest) = .ok (h1, res) →
      res = head ∧
      ∀ i P, base[i]? = some P → ∃ B,
        List.foldlM mergeProfBlocks P.Blocks (selected P.FileName i restV) = .ok B ∧
        (loadReport h1 res)[i]? = some (some { P with Blocks := B })) ∧
    ((∀ i P, base[i]? = some P →
        ∃ B, List.foldlM mergeProfBlocks P.Blocks (selected P.FileName i restV) = .ok B) →
      ∃ h1 res, mergeProfs h (head :: rest) = .ok (h1, res)) := by
  have hdef : mergeProfs h (head :: rest) = mergeProfsOuter rest h 0 head [] := by
    unfold mergeProfs
    rw [hskip]
    cases rest with
    | nil => exact absurd rfl hrest
    | cons r rs => rfl
  rw [represents_cons] at hrep
  obtain ⟨hhead, hrestV⟩ := hrep
  unfold NoAlias at hna
  rw [List.flatten_cons, List.nodup_append] at hna
  obtain ⟨hnd, _, hdisj⟩ := hna
  have hvR : ∀ ps ∈ rest, ∀ q ∈ ps, q ∉ head ∧ ∃ Q, h[q]? = some Q := by
    intro ps hps q hq
    refine ⟨fun hmem => hdisj hmem (List.mem_flatten.2 ⟨ps, hps, hq⟩), ?_⟩
    exact represents_valid h rest restV hrestV ps hps q hq
  obtain ⟨hs1, hs2⟩ := mergeProfsOuter_spec rest head h 0 [] hnd
    (loadReport_valid h head base hhead) hvR
  rw [hdef]
  constructor
  · intro h1 res hok
    obtain ⟨hres, hidx⟩ := hs1 h1 res hok
    have hres1 : res = head := by simpa using hres
    refine ⟨hres1, ?_⟩
    intro i P hP
    obtain ⟨p, hp, hpP⟩ := (loadReport_index h head base hhead i).2 P hP
    obtain ⟨P1, B, hP1, hB, hh1⟩ := hidx i p hp
    rw [hpP] at hP1
    cases hP1
    rw [Nat.zero_add, selPtr_eq_selected h _ i rest restV hrestV] at hB
    refine ⟨B, hB, ?_⟩
    rw [hres1]
    simp only [loadReport, List.getElem?_map, hp, Option.map_some', hh1]
  · intro hall
    apply hs2
    intro k p P hp hpP
    obtain ⟨P1, hP1, hpP1⟩ := (loadReport_index h head base hhead k).1 p hp
    rw [hpP] at hpP1
    cases hpP1
    obtain ⟨B, hB⟩ := hall k P hP1
    refine ⟨B, ?_⟩
    rw [Nat.zero_add, selPtr_eq_selected h _ k rest restV hrestV]
    exact hB

/-- C7 (positional matching): for a list of at least two reports whose first
report is non-empty, held in the heap as distinct profile objects, the blocks
of result profile `i` are the left fold of `mergeProfBlocks`, from the blocks
of the baseline profile `i`, over the blocks `ps[i].Blocks` of exactly the later
reports `ps` that have a profile at index `i` with the baseline's file name, in
order; `mergeProfs` returns exactly when all these folds return; a report
without such a profile at index `i` contributes nothing to file `i`. -/
theorem mergeProfs_positional (h : Heap) (head : Report) (rest : List Report)
    (base : List Profile) (restV : List (List Profile))
    (hne : head ≠ []) (hrest : rest ≠ [])
    (hrep : Represents h (head :: rest) (base :: restV)) (hna : NoAlias (head :: rest)) :
    ((∃ h1 res, mergeProfs h (head :: rest) = .ok (h1, res)) ↔
      ∀ i P, base[i]? = some P →
        ∃ B, List.foldlM mergeProfBlocks P.Blocks (selected P.FileName i restV) = .ok B) ∧
    (∀ h1 res, mergeProfs h (head :: rest) = .ok (h1, res) →
      res = head ∧
      ∀ i P, base[i]? = some P → ∃ B,
        List.foldlM mergeProfBlocks P.Blocks (selected P.FileName i restV) = .ok B ∧
        (loadReport h1 res)[i]? = some (some { P with Blocks := B })) ∧
    (∀ (name : String) (i : Nat) (before after : List (List Profile)) (ps : List Profile),
      (ps[i]? = none ∨ ∃ Q, ps[i]? = some Q ∧ Q.FileName ≠ name) →
      selected name i (before ++ ps :: after) = selected name i (before ++ after)) := by
  obtain ⟨hg1, hg2⟩ := mergeProfs_general h head rest base restV
    (skipEmpty_cons_of_ne_nil head rest hne) hrest hrep hna
  refine ⟨⟨?_, hg2⟩, hg1, ?_⟩
  · rintro ⟨h1, res, hok⟩ i P hP
    obtain ⟨B, hB, _⟩ := (hg1 h1 res hok).2 i P hP
    exact ⟨B, hB⟩
  · intro name i before after ps hps
    unfold selected
    rw [List.filterMap_append, List.filterMap_append, List.filterMap_cons]
    rcases hps with hps | ⟨Q, hQ, hne1⟩
    · simp [hps]
    · simp [hQ, hne1]

/-- A concrete instance of C7: the baseline lists `a.go`, `b.go`; the second
report has `a.go` at index 0 and `c.go` at index 1; the third has `b.go` at
index 0 and `a.go` at index 1 and so contributes nothing. -/
theorem mergeProfs_positional_witness :
    ∃ B, List.foldlM mergeProfBlocks [⟨1, 1, 2, 2, 1, 1⟩]
        (selected "a.go" 0
          [[⟨"a.go", "set", [⟨1, 1, 2, 2, 1, 10⟩]⟩, ⟨"c.go", "set", [⟨1, 1, 2, 2, 1, 20⟩]⟩],
           [⟨"b.go", "set", [⟨1, 1, 2, 2, 1, 100⟩]⟩, ⟨"a.go", "set", [⟨1, 1, 2, 2, 1, 200⟩]⟩]]) =
        .ok B ∧
      (loadReport
        [⟨"a.go", "set", [⟨1, 1, 2, 2, 1, 11⟩]⟩, ⟨"b.go", "set", [⟨1, 1, 2, 2, 1, 2⟩]⟩,
         ⟨"a.go", "set", [⟨1, 1, 2, 2, 1, 10⟩]⟩, ⟨"c.go", "set", [⟨1, 1, 2, 2, 1, 20⟩]⟩,
         ⟨"b.go", "set", [⟨1, 1, 2, 2, 1, 100⟩]⟩, ⟨"a.go", "set", [⟨1, 1, 2, 2, 1, 200⟩]⟩]
        [0, 1])[0]? = some (some { FileName := "a.go", Mode := "set", Blocks := B }) :=
  ((mergeProfs_positional
    [⟨"a.go", "set", [⟨1, 1, 2, 2, 1, 1⟩]⟩, ⟨"b.go", "set", [⟨1, 1, 2, 2, 1, 2⟩]⟩,
     ⟨"a.go", "set", [⟨1, 1, 2, 2, 1, 10⟩]⟩, ⟨"c.go", "set", [⟨1, 1, 2, 2, 1, 20⟩]⟩,
     ⟨"b.go", "set", [⟨1, 1, 2, 2, 1, 100⟩]⟩, ⟨"a.go", "set", [⟨1, 1, 2, 2, 1, 200⟩]⟩]
    [0, 1] [[2, 3], [4, 5]]
    [⟨"a.go", "set", [⟨1, 1, 2, 2, 1, 1⟩]⟩, ⟨"b.go", "set", [⟨1, 1, 2, 2, 1, 2⟩]⟩]
    [[⟨"a.go", "set", [⟨1, 1, 2, 2, 1, 10⟩]⟩, ⟨"c.go", "set", [⟨1, 1, 2, 2, 1, 20⟩]⟩],
     [⟨"b.go", "set", [⟨1, 1, 2, 2, 1, 100⟩]⟩, ⟨"a.go", "set", [⟨1, 1, 2, 2, 1, 200⟩]⟩]]
    (by decide) (by decide) (by decide) (by decide)).2.1
    [⟨"a.go", "set", [⟨1, 1, 2, 2, 1, 11⟩]⟩, ⟨"b.go", "set", [⟨1, 1, 2, 2, 1, 2⟩]⟩,
     ⟨"a.go", "set", [⟨1, 1, 2, 2, 1, 10⟩]⟩, ⟨"c.go", "set", [⟨1, 1, 2, 2, 1, 20⟩]⟩,
     ⟨"b.go", "set", [⟨1, 1, 2, 2, 1, 100⟩]⟩, ⟨"a.go", "set", [⟨1, 1, 2, 2, 1, 200⟩]⟩]
    [0, 1] (by decide)).2 0 ⟨"a.go", "set", [⟨1, 1, 2, 2, 1, 1⟩]⟩ (by decide)

/-! ## mergeProfs: reports of identical structure -/

theorem forall₂_getElem? {α β : Type} (R : α → β → Prop) (l1 : List α) (l2 : List β)
    (hr : List.Forall₂ R l1 l2) (i : Nat) (a : α) (ha : l1[i]? = some a) :
    ∃ b, l2[i]? = some b ∧ R a b := by
  induction hr generalizing i with
  | nil => simp at ha
  | cons hab _ ih =>
    cases i with
    | zero =>
      simp only [List.getElem?_cons_zero, Option.some.injEq] at ha
      subst ha
      exact ⟨_, by simp, hab⟩
    | succ i =>
      simp only [List.getElem?_cons_succ] at ha ⊢
      exact ih i ha

theorem sameBlocks_zipWith (B0 X Y : List ProfileBlock) (hx : SameBlocks B0 X)
    (hy : SameBlocks B0 Y) : SameBlocks (List.zipWith addCount B0 X) Y := by
  unfold SameBlocks at hx hy ⊢
  induction hx generalizing Y with
  | nil => simpa using hy
  | cons hab _ ih =>
    cases hy with
    | cons hay hy1 =>
      simp only [List.zipWith_cons_cons]
      exact List.Forall₂.cons (by simpa [addCount] using hay) (ih _ hy1)

theorem foldlM_sameBlocks (L : List (List ProfileBlock)) (B0 : List ProfileBlock)
    (hall : ∀ X ∈ L, SameBlocks B0 X) :
    List.foldlM mergeProfBlocks B0 L = .ok (L.foldl (List.zipWith addCount) B0) := by
  induction L generalizing B0 with
  | nil => rfl
  | cons X L ih =>
    have hX := hall X (List.mem_cons_self _ _)
    rw [List.foldlM_cons, (mergeProfBlocks_ok_iff B0 X _).2 ⟨hX, rfl⟩]
    show List.foldlM mergeProfBlocks (List.zipWith addCount B0 X) L = _
    rw [ih]
    · rfl
    · intro Y hY
      exact sameBlocks_zipWith B0 X Y hX (hall Y (List.mem_cons_of_mem _ hY))

theorem foldl_zipWith_count (L : List (List ProfileBlock)) (B0 : List ProfileBlock) (j : Nat)
    (b : ProfileBlock) (cs : List Int) (hb : B0[j]? = some b)
    (hcs : L.map (fun X => X[j]?.map (fun x => x.Count)) = cs.map some) :
    (L.foldl (List.zipWith addCount) B0)[j]? =
      some { b with Count := cs.foldl goAdd b.Count } := by
  induction L generalizing B0 b cs with
  | nil =>
    cases cs with
    | nil => simpa using hb
    | cons c cs => simp at hcs
  | cons X L ih =>
    cases cs with
    | nil => simp at hcs
    | cons c cs =>
      simp only [List.map_cons, List.cons.injEq] at hcs
      obtain ⟨hc, hrest⟩ := hcs
      cases hx : X[j]? with
      | none => rw [hx] at hc; cases hc
      | some x =>
        rw [hx] at hc
        simp only [Option.map_some', Option.some.injEq] at hc
        have hz : (List.zipWith addCount B0 X)[j]? = some (addCount b x) := by
          rw [List.getElem?_zipWith, hb, hx]
        have := ih (List.zipWith addCount B0 X) (addCount b x) cs hz hrest
        simp only [List.foldl_cons]
        rw [this]
        simp [addCount, hc]

theorem selected_sameShape (base : List Profile) (restV : List (List Profile)) (i j : Nat)
    (P : Profile) (hP : base[i]? = some P) (hall : ∀ r ∈ restV, SameShape base r) :
    (∀ X ∈ selected P.FileName i restV, SameBlocks P.Blocks X) ∧
    (selected P.FileName i restV).map (fun X => X[j]?.map (fun x => x.Count)) =
      restV.map (fun r => countAt r i j) := by
  induction restV with
  | nil => exact ⟨fun X hX => by simp [selected] at hX, rfl⟩
  | cons r rs ih =>
    obtain ⟨ih1, ih2⟩ := ih (fun r1 hr1 => hall r1 (List.mem_cons_of_mem _ hr1))
    obtain ⟨Q, hQ, hname, hblocks⟩ :=
      forall₂_getElem? _ base r (hall r (List.mem_cons_self _ _)) i P hP
    have hsel : selected P.FileName i (r :: rs) = Q.Blocks :: selected P.FileName i rs := by
      unfold selected
      simp [List.filterMap_cons, hQ, hname]
    rw [hsel]
    constructor
    · intro X hX
      rcases List.mem_cons.1 hX with rfl | hX
      · exact hblocks
      · exact ih1 X hX
    · rw [List.map_cons, List.map_cons, ih2]
      simp [countAt, hQ]

theorem represents_length (h : Heap) (pfss : List Report) (vals : List (List Profile))
    (hrep : Represents h pfss vals) : pfss.length = vals.length := by
  have := congrArg List.length hrep
  simpa using this

theorem loadReport_length_eq (h : Heap) (r : Report) (vs : List Profile)
    (hl : loadReport h r = vs.map some) : r.length = vs.length := by
  have := congrArg List.length hl
  simpa [loadReport] using this

theorem represents_all_empty (h : Heap) (pfss : List Report) (vals : List (List Profile))
    (hrep : Represents h pfss vals) (hall : ∀ v ∈ vals, v = []) : ∀ ps ∈ pfss, ps = [] := by
  induction pfss generalizing vals with
  | nil => intro ps hps; cases hps
  | cons r rs ih =>
    cases vals with
    | nil => simp [Represents] at hrep
    | cons v vs =>
      rw [represents_cons] at hrep
      intro ps hps
      rcases List.mem_cons.1 hps with rfl | hps
      · have hv := hall v (List.mem_cons_self _ _)
        subst hv
        have := loadReport_length_eq h ps [] hrep.1
        exact List.length_eq_zero.1 (by simpa using this)
      · exact ih vs hrep.2 (fun v1 hv1 => hall v1 (List.mem_cons_of_mem _ hv1)) ps hps

theorem exists_map_some {α : Type} (l : List (Option α)) (hall : ∀ x ∈ l, ∃ v, x = some v) :
    ∃ vs : List α, l = vs.map some := by
  induction l with
  | nil => exact ⟨[], rfl⟩
  | cons x xs ih =>
    obtain ⟨v, rfl⟩ := hall x (List.mem_cons_self _ _)
    obtain ⟨vs, rfl⟩ := ih (fun y hy => hall y (List.mem_cons_of_mem _ hy))
    exact ⟨v :: vs, rfl⟩

theorem countAt_eq_some (r : List Profile) (i j : Nat) (c : Int) (hc : countAt r i j = some c) :
    ∃ P b, r[i]? = some P ∧ P.Blocks[j]? = some b ∧ b.Count = c := by
  unfold countAt at hc
  cases hP : r[i]? with
  | none => rw [hP] at hc; cases hc
  | some P =>
    rw [hP] at hc
    simp only [Option.some_bind] at hc
    cases hb : P.Blocks[j]? with
    | none => rw [hb] at hc; cases hc
    | some b =>
      rw [hb] at hc
      simp only [Option.map_some', Option.some.injEq] at hc
      exact ⟨P, b, rfl, hb, hc⟩

theorem foldl_zipWith_length (L : List (List ProfileBlock)) (B0 : List ProfileBlock)
    (hall : ∀ X ∈ L, SameBlocks B0 X) :
    (L.foldl (List.zipWith addCount) B0).length = B0.length := by
  induction L generalizing B0 with
  | nil => rfl
  | cons X L ih =>
    have hX := hall X (List.mem_cons_self _ _)
    rw [List.foldl_cons, ih]
    · have := hX.length_eq
      simp [List.length_zipWith, this]
    · intro Y hY
      exact sameBlocks_zipWith B0 X Y hX (hall Y (List.mem_cons_of_mem _ hY))

theorem countAt_of_sameShape (r s : List Profile) (i j : Nat) (c : Int)
    (hrs : SameShape r s) (hc : countAt r i j = some c) : ∃ d, countAt s i j = some d := by
  obtain ⟨P, b, hP, hb, _⟩ := countAt_eq_some r i j c hc
  obtain ⟨Q, hQ, _, hblocks⟩ := forall₂_getElem? _ r s hrs i P hP
  obtain ⟨x, hx, _⟩ := forall₂_getElem? _ P.Blocks Q.Blocks hblocks j b hb
  exact ⟨x.Count, by simp [countAt, hQ, hx]⟩

theorem mergeProfs_sameShape (h : Heap) (head : Report) (rest : List Report)
    (base : List Profile) (restV : List (List Profile)) (hrest : rest ≠ [])
    (hrep : Represents h (head :: rest) (base :: restV)) (hna : NoAlias (head :: rest))
    (hshape : ∀ r ∈ restV, SameShape base r) :
    ∃ h1 res resVals, mergeProfs h (head :: rest) = .ok (h1, res) ∧
      loadReport h1 res = resVals.map some ∧ resVals.length = base.length ∧
      (∀ (i j : Nat) (c : Int), countAt resVals i j = some c →
        ∃ c0, countAt base i j = some c0) ∧
      ∀ (i j : Nat) (c0 : Int) (cs : List Int), countAt base i j = some c0 →
        restV.map (fun r => countAt r i j) = cs.map some →
        countAt resVals i j = some (cs.foldl goAdd c0) := by
  have hrep0 := hrep
  rw [represents_cons] at hrep0
  obtain ⟨hhead, hrestV⟩ := hrep0
  have hskip : skipEmpty (head :: rest) = head :: rest := by
    by_cases hne : head = []
    · subst hne
      have hbase : base = [] := by
        have := loadReport_length_eq h [] base hhead
        exact List.length_eq_zero.1 (by simpa using this.symm)
      subst hbase
      apply skipEmpty_of_all_empty
      apply represents_all_empty h _ _ hrep
      intro v hv
      rcases List.mem_cons.1 hv with rfl | hv
      · rfl
      · have := hshape v hv
        unfold SameShape at this
        cases this
        rfl
    · exact skipEmpty_cons_of_ne_nil head rest hne
  obtain ⟨hg1, hg2⟩ := mergeProfs_general h head rest base restV hskip hrest hrep hna
  obtain ⟨h1, res, hok⟩ := hg2 (by
    intro i P hP
    exact ⟨_, foldlM_sameBlocks _ _ (selected_sameShape base restV i 0 P hP hshape).1⟩)
  obtain ⟨hres, hidx⟩ := hg1 h1 res hok
  obtain ⟨_, hlen1, _, _⟩ := mergeProfs_frame h h1 _ res hok
  obtain ⟨resVals, hresVals⟩ := exists_map_some (loadReport h1 res) (by
    intro x hx
    unfold loadReport at hx
    obtain ⟨p, hp, rfl⟩ := List.mem_map.1 hx
    rw [hres] at hp
    obtain ⟨Q, hQ⟩ := loadReport_valid h head base hhead p hp
    have hlt : p < h1.length := by
      rw [hlen1]
      exact lt_length_of_getElem? h p Q hQ
    exact ⟨h1[p], List.getElem?_eq_getElem hlt⟩)
  have hlenRes : resVals.length = base.length := by
    have := loadReport_length_eq h1 res resVals hresVals
    rw [← this, hres]
    exact loadReport_length_eq h head base hhead
  have hresAt : ∀ (i : Nat) (P : Profile), base[i]? = some P →
      resVals[i]? = some { P with Blocks :=
        (selected P.FileName i restV).foldl (List.zipWith addCount) P.Blocks } := by
    intro i P hP
    obtain ⟨B, hB, hload⟩ := hidx i P hP
    rw [hresVals, List.getElem?_map] at hload
    rw [foldlM_sameBlocks _ _ (selected_sameShape base restV i 0 P hP hshape).1] at hB
    cases hB
    cases hr : resVals[i]? with
    | none => rw [hr] at hload; cases hload
    | some R =>
      rw [hr] at hload
      simp only [Option.map_some', Option.some.injEq] at hload
      rw [hload]
  refine ⟨h1, res, resVals, hok, hresVals, hlenRes, ?_, ?_⟩
  · intro i j c hc
    obtain ⟨R, b1, hR, hb1, _⟩ := countAt_eq_some resVals i j c hc
    have hi : i < base.length := by
      rw [← hlenRes]
      exact (List.getElem?_eq_some_iff.1 hR).1
    have hP : base[i]? = some base[i] := List.getElem?_eq_getElem hi
    rw [hresAt i _ hP] at hR
    cases hR
    have hj : j < base[i].Blocks.length := by
      rw [← foldl_zipWith_length _ _ (selected_sameShape base restV i 0 _ hP hshape).1]
      exact (List.getElem?_eq_some_iff.1 hb1).1
    exact ⟨(base[i].Blocks[j]).Count, by
      simp [countAt, hP, List.getElem?_eq_getElem hj]⟩
  · intro i j c0 cs hc0 hcs
    obtain ⟨P, b, hP, hb, hbc⟩ := countAt_eq_some base i j c0 hc0
    obtain ⟨_, hcounts⟩ := selected_sameShape base restV i j P hP hshape
    have hBj := foldl_zipWith_count (selected P.FileName i restV) P.Blocks j b cs hb
      (by rw [hcounts, hcs])
    unfold countAt
    rw [hresAt i P hP]
    simp only [Option.some_bind]
    rw [hBj]
    simp [hbc]

/-- C1 (merge additivity): for two or more reports of identical file/block
structure, held in the heap as distinct profile objects, `mergeProfs` returns;
the result has as many file profiles as every input, every block of the result
is a block of every input and, for every file index `i` and block index `j`,
the count of block `j` of result profile `i` is the sum, in Go `int`
arithmetic, of the counts `cs` of that block over all input reports; it is the
exact sum whenever that sum fits a 64-bit `int`. -/
theorem mergeProfs_additive (h : Heap) (pfss : List Report) (vals : List (List Profile))
    (hlen : 2 ≤ pfss.length) (hrep : Represents h pfss vals) (hna : NoAlias pfss)
    (hshape : ∀ r ∈ vals, ∀ s ∈ vals, SameShape r s) :
    ∃ h1 res resVals, mergeProfs h pfss = .ok (h1, res) ∧
      loadReport h1 res = resVals.map some ∧
      (∀ r ∈ vals, resVals.length = r.length) ∧
      (∀ (i j : Nat) (c : Int), countAt resVals i j = some c →
        ∃ cs : List Int, vals.map (fun r => countAt r i j) = cs.map some) ∧
      ∀ (i j : Nat) (cs : List Int), vals.map (fun r => countAt r i j) = cs.map some →
        countAt resVals i j = some (wrapInt cs.sum) ∧
        (-9223372036854775808 ≤ cs.sum → cs.sum ≤ 9223372036854775807 →
          countAt resVals i j = some cs.sum) := by
  match pfss, vals, hlen, hrep, hna, hshape with
  | [], _, hlen, _, _, _ => simp at hlen
  | [_], _, hlen, _, _, _ => simp at hlen
  | _ :: _ :: _, [], _, hrep, _, _ => simp [Represents] at hrep
  | _ :: _ :: _, [_], _, hrep, _, _ => simp [Represents] at hrep
  | head :: r :: rs, base :: v :: vs, _, hrep, hna, hshape =>
    obtain ⟨h1, res, resVals, hok, hload, hlenR, hback, hcount⟩ :=
      mergeProfs_sameShape h head (r :: rs) base (v :: vs) (by simp) hrep hna
        (fun s hs => hshape base (List.mem_cons_self _ _) s (List.mem_cons_of_mem _ hs))
    refine ⟨h1, res, resVals, hok, hload, ?_, ?_, ?_⟩
    · intro s hs
      rw [hlenR]
      exact (hshape base (List.mem_cons_self _ _) s hs).length_eq
    · intro i j c hc
      obtain ⟨c0, hc0⟩ := hback i j c hc
      apply exists_map_some
      intro x hx
      obtain ⟨s, hs, rfl⟩ := List.mem_map.1 hx
      exact countAt_of_sameShape base s i j c0 (hshape base (List.mem_cons_self _ _) s hs) hc0
    · intro i j cs hcs
      match cs, hcs with
      | [], hcs => simp at hcs
      | [_], hcs => simp at hcs
      | c0 :: c1 :: cs2, hcs =>
        simp only [List.map_cons, List.cons.injEq] at hcs
        obtain ⟨hc0, hc1, hcs2⟩ := hcs
        have hres := hcount i j c0 (c1 :: cs2) hc0 (by simp [hc1, hcs2])
        rw [foldl_goAdd_cons] at hres
        have hsum : (c0 :: c1 :: cs2).sum = c0 + (c1 :: cs2).sum := by simp
        rw [hsum]
        refine ⟨hres, ?_⟩
        intro hlo hhi
        rw [hres, wrapInt_of_range _ hlo hhi]

/-- The example of C1: two reports over `a.go` and `b.go` with counts 1, 2 and
10, 20 merge to the counts 11 and 22. -/
theorem mergeProfs_additive_witness :
    ∃ h1 res resVals,
      mergeProfs
        [⟨"a.go", "set", [⟨1, 1, 2, 2, 1, 1⟩]⟩, ⟨"b.go", "set", [⟨1, 1, 2, 2, 1, 2⟩]⟩,
         ⟨"a.go", "set", [⟨1, 1, 2, 2, 1, 10⟩]⟩, ⟨"b.go", "set", [⟨1, 1, 2, 2, 1, 20⟩]⟩]
        [[0, 1], [2, 3]] = .ok (h1, res) ∧
      loadReport h1 res = resVals.map some ∧
      countAt resVals 0 0 = some 11 ∧ countAt resVals 1 0 = some 22 := by
  obtain ⟨h1, res, resVals, hok, hload, _, _, hcount⟩ := mergeProfs_additive
    [⟨"a.go", "set", [⟨1, 1, 2, 2, 1, 1⟩]⟩, ⟨"b.go", "set", [⟨1, 1, 2, 2, 1, 2⟩]⟩,
     ⟨"a.go", "set", [⟨1, 1, 2, 2, 1, 10⟩]⟩, ⟨"b.go", "set", [⟨1, 1, 2, 2, 1, 20⟩]⟩]
    [[0, 1], [2, 3]]
    [[⟨"a.go", "set", [⟨1, 1, 2, 2, 1, 1⟩]⟩, ⟨"b.go", "set", [⟨1, 1, 2, 2, 1, 2⟩]⟩],
     [⟨"a.go", "set", [⟨1, 1, 2, 2, 1, 10⟩]⟩, ⟨"b.go", "set", [⟨1, 1, 2, 2, 1, 20⟩]⟩]]
    (by decide) (by decide) (by decide) (by decide)
  exact ⟨h1, res, resVals, hok, hload,
    (hcount 0 0 [1, 10] (by decide)).2 (by decide) (by decide),
    (hcount 1 0 [2, 20] (by decide)).2 (by decide) (by decide)⟩

/-! ## mergeProfBlocks: what the merge reads and writes -/

theorem mergeProfBlocksLoop_congr (as bs bs1 ret : List ProfileBlock)
    (hagree : List.Forall₂ (fun b c : ProfileBlock =>
      b.StartLine = c.StartLine ∧ b.StartCol = c.StartCol ∧ b.Count = c.Count) bs bs1) :
    mergeProfBlocksLoop as bs1 ret = mergeProfBlocksLoop as bs ret := by
  induction as generalizing bs bs1 ret with
  | nil => simp [mergeProfBlocksLoop]
  | cons a as ih =>
    cases hagree with
    | nil => rfl
    | cons hbc hrest =>
      obtain ⟨h1, h2, h3⟩ := hbc
      unfold mergeProfBlocksLoop
      rw [h1, h2, h3, ih _ _ _ hrest]

theorem zipWith_addCount_getElem (as bs : List ProfileBlock) (i : Nat)
    (h1 : i < (List.zipWith addCount as bs).length) (h2 : i < as.length) (h3 : i < bs.length) :
    (List.zipWith addCount as bs)[i] = addCount as[i] bs[i] := by
  simp [List.getElem_zipWith]

/-- C14 (merging changes counts only): when `mergeProfBlocks as bs` returns, the
result is as long as `as` and block `i` of the result is block `i` of `as` with
its `Count` replaced by the Go sum `as[i].Count + bs[i].Count` (the exact sum
when that fits a 64-bit `int`); and a list `bs1` that agrees with `bs` on
`StartLine`, `StartCol` and `Count` at every index, whatever its `EndLine`,
`EndCol` and `NumStmt`, gives the same outcome, fatal or not. -/
theorem mergeProfBlocks_counts_only (as bs : List ProfileBlock) :
    (∀ r, mergeProfBlocks as bs = .ok r →
      r.length = as.length ∧
      ∀ i (h1 : i < r.length) (h2 : i < as.length) (h3 : i < bs.length),
        r[i].StartLine = as[i].StartLine ∧ r[i].StartCol = as[i].StartCol ∧
        r[i].EndLine = as[i].EndLine ∧ r[i].EndCol = as[i].EndCol ∧
        r[i].NumStmt = as[i].NumStmt ∧
        r[i].Count = goAdd as[i].Count bs[i].Count ∧
        (-9223372036854775808 ≤ as[i].Count + bs[i].Count →
          as[i].Count + bs[i].Count ≤ 9223372036854775807 →
          r[i].Count = as[i].Count + bs[i].Count)) ∧
    (∀ bs1 : List ProfileBlock,
      List.Forall₂ (fun b c : ProfileBlock =>
        b.StartLine = c.StartLine ∧ b.StartCol = c.StartCol ∧ b.Count = c.Count) bs bs1 →
      mergeProfBlocks as bs1 = mergeProfBlocks as bs) := by
  constructor
  · intro r hr
    obtain ⟨hs, rfl⟩ := (mergeProfBlocks_ok_iff as bs r).1 hr
    have hlen := hs.length_eq
    refine ⟨by simp [List.length_zipWith, hlen], ?_⟩
    intro i h1 h2 h3
    rw [zipWith_addCount_getElem as bs i h1 h2 h3]
    refine ⟨rfl, rfl, rfl, rfl, rfl, rfl, ?_⟩
    intro hlo hhi
    show goAdd _ _ = _
    unfold goAdd
    exact wrapInt_of_range _ hlo hhi
  · intro bs1 hagree
    unfold mergeProfBlocks
    rw [← hagree.length_eq, mergeProfBlocksLoop_congr as bs bs1 [] hagree]

/-- A concrete instance of C14: the second list differs in `EndLine`, `EndCol`
and `NumStmt` only, and the merge is the same. -/
theorem mergeProfBlocks_counts_only_witness :
    mergeProfBlocks [⟨1, 1, 2, 2, 1, 1⟩] [⟨1, 1, 9, 9, 7, 5⟩] =
      mergeProfBlocks [⟨1, 1, 2, 2, 1, 1⟩] [⟨1, 1, 2, 2, 1, 5⟩] :=
  (mergeProfBlocks_counts_only [⟨1, 1, 2, 2, 1, 1⟩] [⟨1, 1, 2, 2, 1, 5⟩]).2
    [⟨1, 1, 9, 9, 7, 5⟩] (by decide)

/-! ## toSF: index safety of the line loop -/

theorem lineLoop_ok_range (c : Int) (k : Nat) (i : Int) (cov cov1 : List (Option Int))
    (hok : lineLoop c k i cov = .ok cov1) :
    k = 0 ∨ (1 ≤ i ∧ i + k - 1 ≤ cov.length) := by
  induction k generalizing i cov with
  | zero => exact Or.inl rfl
  | succ k ih =>
    right
    unfold lineLoop at hok
    split at hok
    · cases hok
    · rename_i cov2 h2
      have hlen := touchLine_length _ _ _ _ h2
      unfold touchLine at h2
      split at h2
      · rename_i hidx
        rcases ih _ _ hok with hk | hk
        · subst hk
          push_cast
          omega
        · rw [hlen] at hk
          push_cast
          omega
      · cases h2

theorem lineLoop_error (c : Int) (k : Nat) (i : Int) (cov : List (Option Int)) (e : Fatal)
    (herr : lineLoop c k i cov = .error e) : e = .indexOutOfRange := by
  induction k generalizing i cov with
  | zero => cases herr
  | succ k ih =>
    unfold lineLoop at herr
    split at herr
    · rename_i e1 h1
      unfold touchLine at h1
      split at h1
      · cases h1
      · cases h1
        cases herr
        rfl
    · exact ih _ _ herr

theorem blocksLoop_error (blocks : List ProfileBlock) (cov : List (Option Int)) (e : Fatal)
    (herr : blocksLoop cov blocks = .error e) : e = .indexOutOfRange := by
  induction blocks generalizing cov with
  | nil => cases herr
  | cons b bs ih =>
    unfold blocksLoop at herr
    split at herr
    · rename_i e1 h1
      cases herr
      exact lineLoop_error _ _ _ _ _ h1
    · exact ih _ herr

theorem blocksLoop_ok_inRange (blocks : List ProfileBlock) (cov cov1 : List (Option Int))
    (hok : blocksLoop cov blocks = .ok cov1) : InRange cov.length blocks := by
  induction blocks generalizing cov with
  | nil => intro b hb; cases hb
  | cons b bs ih =>
    unfold blocksLoop at hok
    split at hok
    · cases hok
    · rename_i cov2 h2
      have hlen : cov2.length = cov.length := lineLoop_length _ _ _ _ _ h2
      have hrest := ih cov2 hok
      rw [hlen] at hrest
      intro x hx
      rcases List.mem_cons.1 hx with rfl | hx
      · intro hle
        rcases lineLoop_ok_range _ _ _ _ _ h2 with hk | hk
        · omega
        · omega
      · exact hrest x hx

/-- C17 (index safety of the line expansion): for a file of
`n = 1 + newlines` lines, every access `sf.Coverage[i-1]` of `toSF` is in
bounds, that is the array is built without an index panic, exactly when every
block with `StartLine <= EndLine` has `1 <= StartLine` and `EndLine <= n`; the
only way the loops can end abnormally is the index panic; and a block with
`StartLine > EndLine` leaves every array as it is. -/
theorem buildCoverage_index_safety (fb : List Nat) (blocks : List ProfileBlock) :
    ((∃ cov, buildCoverage fb blocks = .ok cov) ↔ InRange (1 + fb.count newline) blocks) ∧
    (∀ e, buildCoverage fb blocks = .error e → e = .indexOutOfRange) ∧
    (InRange (1 + fb.count newline) blocks →
      ∀ e, buildCoverage fb blocks ≠ .error e) ∧
    (∀ (b : ProfileBlock) (cov : List (Option Int)),
      b.EndLine < b.StartLine → blockLoop cov b = .ok cov) := by
  have hlen0 : (newCoverage fb).length = 1 + fb.count newline := by simp [newCoverage]
  refine ⟨⟨?_, ?_⟩, ?_, ?_, ?_⟩
  · rintro ⟨cov, hok⟩
    have := blocksLoop_ok_inRange blocks (newCoverage fb) cov hok
    rwa [hlen0] at this
  · intro hin
    obtain ⟨cov, hok, _⟩ := buildCoverage_spec fb blocks hin
    exact ⟨cov, hok⟩
  · intro e herr
    exact blocksLoop_error blocks (newCoverage fb) e herr
  · intro hin e herr
    obtain ⟨cov, hok, _⟩ := buildCoverage_spec fb blocks hin
    rw [hok] at herr
    cases herr
  · intro b cov hlt
    unfold blockLoop
    have : (b.EndLine - b.StartLine + 1).toNat = 0 := by omega
    rw [this]
    rfl

/-- A concrete instance of C17: in a file of three lines a block over the
lines 2-4 runs out of the array, a block over the lines 0-1 starts before it,
and a block from line 9 back to line 7 touches nothing. -/
theorem buildCoverage_index_safety_witness :
    buildCoverage [97, 10, 98, 10, 99] [⟨2, 1, 4, 1, 1, 1⟩] = .error .indexOutOfRange ∧
    buildCoverage [97, 10, 98, 10, 99] [⟨0, 1, 1, 1, 1, 1⟩] = .error .indexOutOfRange ∧
    buildCoverage [97, 10, 98, 10, 99] [⟨9, 1, 7, 1, 1, 1⟩] = .ok [none, none, none] ∧
    ∀ e, buildCoverage [97, 10, 98, 10, 99] [⟨2, 1, 3, 1, 1, 1⟩] ≠ .error e :=
  ⟨by decide, by decide, by decide,
   (buildCoverage_index_safety [97, 10, 98, 10, 99] [⟨2, 1, 3, 1, 1, 1⟩]).2.2.1 (by decide)⟩

/-! ## toSF: one record per profile -/

theorem toSFLoop_spec (findFile : String → Option String)
    (readFile : String → Option (List Nat)) (getName : String → String) (h : Heap)
    (profs : List Ptr) (rv res : List SourceFile)
    (hok : toSFLoop findFile readFile getName h profs rv = .ok res) :
    ∃ recs : List SourceFile, res = rv ++ recs ∧ recs.length = profs.length ∧
      ∀ (k : Nat) (p : Ptr), profs[k]? = some p →
        ∃ (P : Profile) (path : String) (fb : List Nat) (cov : List (Option Int)),
        h[p]? = some P ∧ findFile P.FileName = some path ∧ readFile path = some fb ∧
        buildCoverage fb P.Blocks = .ok cov ∧
        recs[k]? = some { Name := getName path, Source := fb, Coverage := cov } := by
  induction profs generalizing rv with
  | nil =>
    simp only [toSFLoop, Except.ok.injEq] at hok
    subst hok
    exact ⟨[], by simp, rfl, fun k p hk => by simp at hk⟩
  | cons q qs ih =>
    unfold toSFLoop at hok
    split at hok
    · cases hok
    · rename_i P hP
      split at hok
      · cases hok
      · rename_i path hpath
        split at hok
        · cases hok
        · rename_i fb hfb
          split at hok
          · cases hok
          · rename_i cov hcov
            obtain ⟨recs, hres, hlen, hidx⟩ := ih _ hok
            refine ⟨{ Name := getName path, Source := fb, Coverage := cov } :: recs,
              by simpa using hres, by simp [hlen], ?_⟩
            intro k p hk
            cases k with
            | zero =>
              simp only [List.getElem?_cons_zero, Option.some.injEq] at hk
              subst hk
              exact ⟨P, path, fb, cov, hP, hpath, hfb, hcov, by simp⟩
            | succ k =>
              simp only [List.getElem?_cons_succ] at hk ⊢
              exact hidx k p hk

theorem toSFLoop_total (findFile : String → Option String)
    (readFile : String → Option (List Nat)) (getName : String → String) (h : Heap)
    (profs : List Ptr) (rv : List SourceFile)
    (hall : ∀ p ∈ profs, ∃ (P : Profile) (path : String) (fb : List Nat) (cov : List (Option Int)),
        h[p]? = some P ∧ findFile P.FileName = some path ∧
      readFile path = some fb ∧ buildCoverage fb P.Blocks = .ok cov) :
    ∃ res, toSFLoop findFile readFile getName h profs rv = .ok res := by
  induction profs generalizing rv with
  | nil => exact ⟨rv, rfl⟩
  | cons q qs ih =>
    obtain ⟨P, path, fb, cov, hP, hpath, hfb, hcov⟩ := hall q (List.mem_cons_self _ _)
    unfold toSFLoop
    rw [hP]
    simp only [hpath, hfb, hcov]
    exact ih _ (fun p hp => hall p (List.mem_cons_of_mem _ hp))

/-- C12 (one output record per profile, in order): when `toSF` returns, the
result has exactly as many records as there are profiles and record `k` is
built from profile `k`: its source text is the contents of the file that
`findFile` resolves from that profile's file name, its name is derived from
that path and its coverage array is the one built from that profile's blocks;
and `toSF` does return when every profile is resolvable, readable and has its
array built. -/
theorem toSF_records (findFile : String → Option String)
    (readFile : String → Option (List Nat)) (getName : String → String) (h : Heap)
    (profs : List Ptr) :
    (∀ rv, toSF findFile readFile getName h profs = .ok rv →
      rv.length = profs.length ∧
      ∀ (k : Nat) (p : Ptr), profs[k]? = some p →
        ∃ (P : Profile) (path : String) (fb : List Nat) (cov : List (Option Int)),
        h[p]? = some P ∧ findFile P.FileName = some path ∧ readFile path = some fb ∧
        buildCoverage fb P.Blocks = .ok cov ∧
        rv[k]? = some { Name := getName path, Source := fb, Coverage := cov }) ∧
    ((∀ p ∈ profs, ∃ (P : Profile) (path : String) (fb : List Nat) (cov : List (Option Int)),
        h[p]? = some P ∧ findFile P.FileName = some path ∧
        readFile path = some fb ∧ buildCoverage fb P.Blocks = .ok cov) →
      ∃ rv, toSF findFile readFile getName h profs = .ok rv) := by
  constructor
  · intro rv hok
    obtain ⟨recs, hres, hlen, hidx⟩ := toSFLoop_spec findFile readFile getName h profs [] rv hok
    simp only [List.nil_append] at hres
    subst hres
    exact ⟨hlen, hidx⟩
  · intro hall
    exact toSFLoop_total findFile readFile getName h profs [] hall

/-- A concrete instance of C12: two profiles over two files give two records,
the first from the first profile and the second from the second. -/
theorem toSF_records_witness :
    toSF (fun name => some ("/src/" ++ name))
        (fun path => if path = "/src/a.go" then some [97, 10, 98] else some [99])
        (fun path => path)
        [⟨"a.go", "set", [⟨2, 1, 2, 5, 1, 3⟩]⟩, ⟨"b.go", "set", [⟨1, 1, 1, 5, 1, 7⟩]⟩] [0, 1] =
      .ok [⟨"/src/a.go", [97, 10, 98], [none, some 3]⟩, ⟨"/src/b.go", [99], [some 7]⟩] ∧
    ([⟨"/src/a.go", [97, 10, 98], [none, some 3]⟩,
      ⟨"/src/b.go", [99], [some 7]⟩] : List SourceFile).length = [0, 1].length :=
  ⟨by decide,
   ((toSF_records (fun name => some ("/src/" ++ name))
      (fun path => if path = "/src/a.go" then some [97, 10, 98] else some [99])
      (fun path => path)
      [⟨"a.go", "set", [⟨2, 1, 2, 5, 1, 3⟩]⟩, ⟨"b.go", "set", [⟨1, 1, 1, 5, 1, 7⟩]⟩] [0, 1]).1
      [⟨"/src/a.go", [97, 10, 98], [none, some 3]⟩, ⟨"/src/b.go", [99], [some 7]⟩]
      (by decide)).1⟩

/-! ## mergeProfs: empty reports -/

theorem nonEmptyReports_cons_nil (rs : List Report) :
    nonEmptyReports ([] :: rs) = nonEmptyReports rs := by
  simp [nonEmptyReports]

theorem nonEmptyReports_cons_of_ne_nil (r : Report) (rs : List Report) (hr : r ≠ []) :
    nonEmptyReports (r :: rs) = r :: nonEmptyReports rs := by
  have : 0 < r.length := List.length_pos.2 hr
  simp [nonEmptyReports, this]

theorem mergeProfsInner_nonEmpty (i : Nat) (p : Ptr) (rest : List Report) (h : Heap) :
    mergeProfsInner i p h rest = mergeProfsInner i p h (nonEmptyReports rest) := by
  induction rest generalizing h with
  | nil => rfl
  | cons ps rest ih =>
    by_cases h0 : ps = []
    · subst h0
      rw [nonEmptyReports_cons_nil]
      conv_lhs => unfold mergeProfsInner
      rw [if_pos (List.length_nil)]
      exact ih h
    · rw [nonEmptyReports_cons_of_ne_nil ps rest h0]
      conv_lhs => unfold mergeProfsInner
      conv_rhs => unfold mergeProfsInner
      simp only [ih]

theorem mergeProfsOuter_nonEmpty (rest : List Report) (tl : List Ptr) (h : Heap) (i : Nat)
    (ret : List Ptr) :
    mergeProfsOuter rest h i tl ret = mergeProfsOuter (nonEmptyReports rest) h i tl ret := by
  induction tl generalizing h i ret with
  | nil => rfl
  | cons p tl ih =>
    conv_lhs => unfold mergeProfsOuter
    conv_rhs => unfold mergeProfsOuter
    rw [← mergeProfsInner_nonEmpty]
    simp only [ih]

theorem mergeProfsOuter_nil (tl : List Ptr) (h : Heap) (i : Nat) (ret : List Ptr) :
    mergeProfsOuter [] h i tl ret = .ok (h, ret ++ tl) := by
  induction tl generalizing i ret with
  | nil => simp [mergeProfsOuter]
  | cons p tl ih =>
    unfold mergeProfsOuter
    simp only [mergeProfsInner]
    rw [ih]
    simp

theorem mergeProfs_cons_of_ne_nil (h : Heap) (head : Report) (rest : List Report)
    (hne : head ≠ []) : mergeProfs h (head :: rest) = mergeProfsOuter rest h 0 head [] := by
  unfold mergeProfs
  rw [skipEmpty_cons_of_ne_nil head rest hne]
  cases rest with
  | nil => rw [mergeProfsOuter_nil]; rfl
  | cons r rs => rfl

theorem mergeProfs_nil_cons (h : Heap) (pfss : List Report) :
    mergeProfs h ([] :: pfss) = mergeProfs h pfss := by
  cases hs : skipEmptyLoop pfss with
  | none =>
    have hall := (skipEmptyLoop_none pfss).1 hs
    rw [mergeProfs_of_all_empty h pfss hall, mergeProfs_of_all_empty h ([] :: pfss)]
    intro r hr
    rcases List.mem_cons.1 hr with rfl | hr
    · rfl
    · exact hall r hr
  | some s =>
    unfold mergeProfs skipEmpty
    simp only [skipEmptyLoop, List.length_nil, gt_iff_lt, Nat.lt_irrefl, if_false, hs]

theorem mergeProfs_nonEmpty (h : Heap) (pfss : List Report) :
    mergeProfs h pfss = mergeProfs h (nonEmptyReports pfss) := by
  induction pfss with
  | nil => rfl
  | cons r rs ih =>
    by_cases hr : r = []
    · subst hr
      rw [mergeProfs_nil_cons, nonEmptyReports_cons_nil, ih]
    · rw [nonEmptyReports_cons_of_ne_nil r rs hr, mergeProfs_cons_of_ne_nil h r rs hr,
        mergeProfs_cons_of_ne_nil h r _ hr, mergeProfsOuter_nonEmpty]

/-- C15 (empty reports are ignored wherever they occur): `mergeProfs` gives the
same outcome on a list of reports and on that list with all empty reports
removed, leading, interleaved or trailing: both end with the same fatal error
or both return the same list of profile objects and the same heap, hence the
same names, blocks and counts. -/
theorem mergeProfs_ignores_empty (h : Heap) (pfss : List Report) :
    mergeProfs h pfss = mergeProfs h (nonEmptyReports pfss) ∧
      (∀ r ∈ nonEmptyReports pfss, r ≠ []) ∧
      (∀ r ∈ pfss, r ≠ [] → r ∈ nonEmptyReports pfss) := by
  refine ⟨mergeProfs_nonEmpty h pfss, ?_, ?_⟩
  · intro r hr
    unfold nonEmptyReports at hr
    have := (List.mem_filter.1 hr).2
    exact List.length_pos.1 (by simpa using this)
  · intro r hr hne
    unfold nonEmptyReports
    exact List.mem_filter.2 ⟨hr, by simpa using List.length_pos.2 hne⟩

/-! ## mergeProfs: merging in stages -/

theorem mergeProfsOuter_post (rest : List Report) (tl : List Ptr) (h : Heap) (i : Nat)
    (ret : List Ptr) (hpre : OuterPre rest h tl) (h1 : Heap) (res : List Ptr)
    (hok : mergeProfsOuter rest h i tl ret = .ok (h1, res)) :
    OuterPost rest h i tl ret h1 res := by
  obtain ⟨hnd, hvT, hvR⟩ := hpre
  obtain ⟨hres, hidx⟩ := (mergeProfsOuter_spec rest tl h i ret hnd hvT hvR).1 h1 res hok
  obtain ⟨_, hlen, hframe, _⟩ := mergeProfsOuter_frame rest tl h h1 i ret res hok
  exact ⟨hres, hlen, hframe, hidx⟩

theorem outerPost_unique (rest : List Report) (tl : List Ptr) (h : Heap) (i : Nat)
    (ret : List Ptr) (h1 h2 : Heap) (res1 res2 : List Ptr)
    (hp1 : OuterPost rest h i tl ret h1 res1) (hp2 : OuterPost rest h i tl ret h2 res2) :
    h1 = h2 ∧ res1 = res2 := by
  obtain ⟨hr1, hl1, hf1, hi1⟩ := hp1
  obtain ⟨hr2, hl2, hf2, hi2⟩ := hp2
  refine ⟨?_, by rw [hr1, hr2]⟩
  apply List.ext_getElem?
  intro q
  by_cases hq : q ∈ tl
  · obtain ⟨k, hk, hkq⟩ := List.getElem_of_mem hq
    have hget : tl[k]? = some q := by rw [List.getElem?_eq_getElem hk, hkq]
    obtain ⟨P1, B1, hP1, hB1, hh1⟩ := hi1 k q hget
    obtain ⟨P2, B2, hP2, hB2, hh2⟩ := hi2 k q hget
    rw [hP1] at hP2
    cases hP2
    rw [hB1] at hB2
    cases hB2
    rw [hh1, hh2]
  · rw [hf1 q hq, hf2 q hq]

theorem mergeProfsOuter_of_post (rest : List Report) (tl : List Ptr) (h : Heap) (i : Nat)
    (ret : List Ptr) (hpre : OuterPre rest h tl) (h1 : Heap) (res : List Ptr)
    (hpost : OuterPost rest h i tl ret h1 res) :
    mergeProfsOuter rest h i tl ret = .ok (h1, res) := by
  obtain ⟨hnd, hvT, hvR⟩ := hpre
  obtain ⟨h2, res2, hok⟩ := (mergeProfsOuter_spec rest tl h i ret hnd hvT hvR).2 (by
    intro k p P hk hP
    obtain ⟨P1, B, hP1, hB, _⟩ := hpost.2.2.2 k p hk
    rw [hP] at hP1
    cases hP1
    exact ⟨B, hB⟩)
  have hpost2 := mergeProfsOuter_post rest tl h i ret ⟨hnd, hvT, hvR⟩ h2 res2 hok
  obtain ⟨e1, e2⟩ := outerPost_unique rest tl h i ret h2 h1 res2 res hpost2 hpost
  rw [hok, e1, e2]

theorem selPtr_cons_append (h : Heap) (name : String) (i : Nat) (b : Report)
    (rest : List Report) :
    selPtr h name i (b :: rest) = selPtr h name i [b] ++ selPtr h name i rest := by
  unfold selPtr
  rw [List.filterMap_cons, List.filterMap_cons, List.filterMap_nil]
  split <;> simp

theorem foldlM_append_ok (B0 B : List ProfileBlock) (A R : List (List ProfileBlock)) :
    List.foldlM mergeProfBlocks B0 (A ++ R) = .ok B ↔
      ∃ B1, List.foldlM mergeProfBlocks B0 A = .ok B1 ∧
        List.foldlM mergeProfBlocks B1 R = .ok B := by
  rw [List.foldlM_append]
  cases hA : List.foldlM mergeProfBlocks B0 A with
  | error e =>
    constructor
    · intro hc; cases hc
    · rintro ⟨B1, hB1, _⟩; cases hB1
  | ok B1 =>
    constructor
    · intro hc; exact ⟨B1, rfl, hc⟩
    · rintro ⟨B2, hB2, hB⟩
      cases hB2
      exact hB

theorem outerPre_tail (b : Report) (rest : List Report) (h h1 : Heap) (tl : List Ptr)
    (hpre : OuterPre (b :: rest) h tl) (hlen : h1.length = h.length)
    (hframe : ∀ q : Ptr, q ∉ tl → h1[q]? = h[q]?) : OuterPre rest h1 tl := by
  obtain ⟨hnd, hvT, hvR⟩ := hpre
  refine ⟨hnd, ?_, ?_⟩
  · intro p hp
    obtain ⟨P, hP⟩ := hvT p hp
    have hlt : p < h1.length := by
      rw [hlen]; exact lt_length_of_getElem? h p P hP
    exact ⟨h1[p], List.getElem?_eq_getElem hlt⟩
  · intro ps hps q hq
    obtain ⟨hnot, hQ⟩ := hvR ps (List.mem_cons_of_mem _ hps) q hq
    exact ⟨hnot, by rw [hframe q hnot]; exact hQ⟩

theorem outerPre_head (b : Report) (rest : List Report) (h : Heap) (tl : List Ptr)
    (hpre : OuterPre (b :: rest) h tl) : OuterPre [b] h tl := by
  obtain ⟨hnd, hvT, hvR⟩ := hpre
  refine ⟨hnd, hvT, ?_⟩
  intro ps hps q hq
  rw [List.mem_singleton] at hps
  subst hps
  exact hvR ps (List.mem_cons_self _ _) q hq

theorem mergeProfsOuter_staged (b : Report) (rest : List Report) (a : List Ptr) (h : Heap)
    (i : Nat) (ret : List Ptr) (hpre : OuterPre (b :: rest) h a) (h2 : Heap) (res : List Ptr) :
    mergeProfsOuter (b :: rest) h i a ret = .ok (h2, res) ↔
      ∃ h1 m, mergeProfsOuter [b] h i a ret = .ok (h1, m) ∧
        mergeProfsOuter rest h1 i a ret = .ok (h2, res) := by
  have hpreB := outerPre_head b rest h a hpre
  have hsame : ∀ (h1 : Heap), (∀ q : Ptr, q ∉ a → h1[q]? = h[q]?) →
      ∀ (name : String) (j : Nat), selPtr h1 name j rest = selPtr h name j rest := by
    intro h1 hframe name j
    apply selPtr_congr
    intro ps hps q hq
    exact hframe q (hpre.2.2 ps (List.mem_cons_of_mem _ hps) q hq).1
  constructor
  · intro hok
    obtain ⟨hres, hlen, hframe, hidx⟩ := mergeProfsOuter_post _ a h i ret hpre h2 res hok
    obtain ⟨h1, m, hok1⟩ :=
      (mergeProfsOuter_spec [b] a h i ret hpreB.1 hpreB.2.1 hpreB.2.2).2 (by
        intro k p P hk hP
        obtain ⟨P1, B, hP1, hB, _⟩ := hidx k p hk
        rw [hP] at hP1
        cases hP1
        rw [selPtr_cons_append, foldlM_append_ok] at hB
        obtain ⟨B1, hB1, _⟩ := hB
        exact ⟨B1, hB1⟩)
    obtain ⟨hres1, hlen1, hframe1, hidx1⟩ := mergeProfsOuter_post _ a h i ret hpreB h1 m hok1
    refine ⟨h1, m, hok1, ?_⟩
    apply mergeProfsOuter_of_post rest a h1 i ret (outerPre_tail b rest h h1 a hpre hlen1 hframe1)
    refine ⟨hres, by rw [hlen, hlen1], ?_, ?_⟩
    · intro q hq
      rw [hframe q hq, hframe1 q hq]
    · intro k p hk
      obtain ⟨P, B, hP, hB, hh2⟩ := hidx k p hk
      obtain ⟨P1, B1, hP1, hB1, hh1⟩ := hidx1 k p hk
      rw [hP] at hP1
      cases hP1
      rw [selPtr_cons_append, foldlM_append_ok] at hB
      obtain ⟨B1a, hB1a, hBrest⟩ := hB
      rw [hB1] at hB1a
      cases hB1a
      refine ⟨{ P with Blocks := B1 }, B, hh1, ?_, hh2⟩
      rw [hsame h1 hframe1]
      exact hBrest
  · rintro ⟨h1, m, hok1, hok2⟩
    obtain ⟨hres1, hlen1, hframe1, hidx1⟩ := mergeProfsOuter_post _ a h i ret hpreB h1 m hok1
    obtain ⟨hres2, hlen2, hframe2, hidx2⟩ := mergeProfsOuter_post rest a h1 i ret
      (outerPre_tail b rest h h1 a hpre hlen1 hframe1) h2 res hok2
    apply mergeProfsOuter_of_post (b :: rest) a h i ret hpre
    refine ⟨hres2, by rw [hlen2, hlen1], ?_, ?_⟩
    · intro q hq
      rw [hframe2 q hq, hframe1 q hq]
    · intro k p hk
      obtain ⟨P, B1, hP, hB1, hh1⟩ := hidx1 k p hk
      obtain ⟨P1, B, hP1, hB, hh2⟩ := hidx2 k p hk
      rw [hh1] at hP1
      cases hP1
      rw [hsame h1 hframe1] at hB
      refine ⟨P, B, hP, ?_, hh2⟩
      rw [selPtr_cons_append, foldlM_append_ok]
      exact ⟨B1, hB1, hB⟩

theorem outerPre_of_represents (h : Heap) (a : Report) (rest : List Report)
    (vals : List (List Profile)) (hrep : Represents h (a :: rest) vals)
    (hna : NoAlias (a :: rest)) : OuterPre rest h a := by
  cases vals with
  | nil => simp [Represents] at hrep
  | cons v vs =>
    rw [represents_cons] at hrep
    unfold NoAlias at hna
    rw [List.flatten_cons, List.nodup_append] at hna
    obtain ⟨hnd, _, hdisj⟩ := hna
    refine ⟨hnd, loadReport_valid h a v hrep.1, ?_⟩
    intro ps hps q hq
    exact ⟨fun hmem => hdisj hmem (List.mem_flatten.2 ⟨ps, hps, hq⟩),
      represents_valid h rest vs hrep.2 ps hps q hq⟩

theorem mergeProfs_staged_eq (h : Heap) (a b : Report) (rest : List Report)
    (vals : List (List Profile)) (hrep : Represents h (a :: b :: rest) vals)
    (hna : NoAlias (a :: b :: rest)) (h2 : Heap) (res : Report) :
    mergeProfs h (a :: b :: rest) = .ok (h2, res) ↔
      ∃ h1 m, mergeProfs h [a, b] = .ok (h1, m) ∧ mergeProfs h1 (m :: rest) = .ok (h2, res) := by
  by_cases ha : a = []
  · subst ha
    rw [mergeProfs_nil_cons, mergeProfs_nil_cons, mergeProfs_singleton]
    constructor
    · intro hok
      exact ⟨h, b, rfl, hok⟩
    · rintro ⟨h1, m, heq, hok⟩
      simp only [Except.ok.injEq, Prod.mk.injEq] at heq
      obtain ⟨rfl, rfl⟩ := heq
      exact hok
  · have hpre := outerPre_of_represents h a (b :: rest) vals hrep hna
    rw [mergeProfs_cons_of_ne_nil h a _ ha, mergeProfs_cons_of_ne_nil h a _ ha,
      mergeProfsOuter_staged b rest a h 0 [] hpre h2 res]
    constructor
    · rintro ⟨h1, m, hok1, hok2⟩
      have hm : m = a := by
        simpa using (mergeProfsOuter_frame [b] a h h1 0 [] m hok1).1
      subst hm
      exact ⟨h1, m, hok1, by rw [mergeProfs_cons_of_ne_nil h1 m rest ha]; exact hok2⟩
    · rintro ⟨h1, m, hok1, hok2⟩
      have hm : m = a := by
        simpa using (mergeProfsOuter_frame [b] a h h1 0 [] m hok1).1
      subst hm
      rw [mergeProfs_cons_of_ne_nil h1 m rest ha] at hok2
      exact ⟨h1, m, hok1, hok2⟩

/-- C16 (staged merging agrees with merging at once): for reports `a`, `b` and
a list `rest`, held in the heap as distinct profile objects, `mergeProfs` of
`a :: b :: rest` returns a result exactly when `mergeProfs` of `[a, b]` returns
some report `m` and `mergeProfs` of `m :: rest`, run in the heap the first call
left, returns that same result: the same list of profile objects and the same
heap, hence the same file names, blocks and counts. -/
theorem mergeProfs_staged (h : Heap) (a b : Report) (rest : List Report)
    (vals : List (List Profile)) (hrep : Represents h (a :: b :: rest) vals)
    (hna : NoAlias (a :: b :: rest)) :
    (∀ (h2 : Heap) (res : Report),
      mergeProfs h (a :: b :: rest) = .ok (h2, res) ↔
        ∃ h1 m, mergeProfs h [a, b] = .ok (h1, m) ∧
          mergeProfs h1 (m :: rest) = .ok (h2, res)) ∧
    ((∃ h2 res, mergeProfs h (a :: b :: rest) = .ok (h2, res)) ↔
      ∃ h1 m h2 res, mergeProfs h [a, b] = .ok (h1, m) ∧
        mergeProfs h1 (m :: rest) = .ok (h2, res)) := by
  have key := mergeProfs_staged_eq h a b rest vals hrep hna
  refine ⟨key, ?_⟩
  constructor
  · rintro ⟨h2, res, hok⟩
    obtain ⟨h1, m, hok1, hok2⟩ := (key h2 res).1 hok
    exact ⟨h1, m, h2, res, hok1, hok2⟩
  · rintro ⟨h1, m, h2, res, hok1, hok2⟩
    exact ⟨h2, res, (key h2 res).2 ⟨h1, m, hok1, hok2⟩⟩

/-- A concrete instance of C16: three reports over `a.go` with counts 1, 2 and
4; merging the first two and then the third gives the count 7 of merging all
three at once. -/
theorem mergeProfs_staged_witness :
    ∃ h1 m,
      mergeProfs
        [⟨"a.go", "set", [⟨1, 1, 2, 2, 1, 1⟩]⟩, ⟨"a.go", "set", [⟨1, 1, 2, 2, 1, 2⟩]⟩,
         ⟨"a.go", "set", [⟨1, 1, 2, 2, 1, 4⟩]⟩]
        [[0], [1]] = .ok (h1, m) ∧
      mergeProfs h1 (m :: [[2]]) =
        .ok ([⟨"a.go", "set", [⟨1, 1, 2, 2, 1, 7⟩]⟩, ⟨"a.go", "set", [⟨1, 1, 2, 2, 1, 2⟩]⟩,
              ⟨"a.go", "set", [⟨1, 1, 2, 2, 1, 4⟩]⟩], [0]) :=
  ((mergeProfs_staged
    [⟨"a.go", "set", [⟨1, 1, 2, 2, 1, 1⟩]⟩, ⟨"a.go", "set", [⟨1, 1, 2, 2, 1, 2⟩]⟩,
     ⟨"a.go", "set", [⟨1, 1, 2, 2, 1, 4⟩]⟩]
    [0] [1] [[2]]
    [[⟨"a.go", "set", [⟨1, 1, 2, 2, 1, 1⟩]⟩], [⟨"a.go", "set", [⟨1, 1, 2, 2, 1, 2⟩]⟩],
     [⟨"a.go", "set", [⟨1, 1, 2, 2, 1, 4⟩]⟩]]
    (by decide) (by decide)).1
    [⟨"a.go", "set", [⟨1, 1, 2, 2, 1, 7⟩]⟩, ⟨"a.go", "set", [⟨1, 1, 2, 2, 1, 2⟩]⟩,
     ⟨"a.go", "set", [⟨1, 1, 2, 2, 1, 4⟩]⟩] [0]).1 (by decide)

/-! ## getModuleNameFromGoMod -/

theorem moduleNameLoop_spec (lines : List (List Char)) :
    (∀ line, lines.find? declaresModule = some line →
      ∃ f, (fields line)[1]? = some f ∧ moduleNameLoop lines = String.mk f) ∧
    (lines.find? declaresModule = none →
      moduleNameLoop lines = "") := by
  induction lines with
  | nil => exact ⟨fun line hl => by simp at hl, fun _ => rfl⟩
  | cons l ls ih =>
    by_cases hp : startsWithModule l = true
    · by_cases hf : 1 < (fields l).length
      · have hgood : declaresModule l = true := by
          simp [declaresModule, hp, hf]
        rw [List.find?_cons_of_pos ls hgood]
        constructor
        · intro line hl
          cases hl
          refine ⟨(fields l)[1], List.getElem?_eq_getElem hf, ?_⟩
          unfold moduleNameLoop
          rw [if_pos hp, dif_pos hf]
        · intro hn; cases hn
      · have hbad : ¬ declaresModule l = true := by
          simp [declaresModule, hf]
        rw [List.find?_cons_of_neg ls hbad]
        have hstep : moduleNameLoop (l :: ls) = moduleNameLoop ls := by
          conv_lhs => unfold moduleNameLoop
          rw [if_pos hp, dif_neg hf]
        rw [hstep]
        exact ih
    · have hbad : ¬ declaresModule l = true := by
        simp [declaresModule, hp]
      rw [List.find?_cons_of_neg ls hbad]
      have hstep : moduleNameLoop (l :: ls) = moduleNameLoop ls := by
        conv_lhs => unfold moduleNameLoop
        rw [if_neg hp]
      rw [hstep]
      exact ih

/-- C13, as stated, fails: in the text of the two lines `module` and
`module a` the first line that starts with "module" is the line `module`, which
has no second field, and `getModuleNameFromGoMod` returns `a`, the second field
of the second line. -/
theorem getModuleNameFromGoMod_skips_short_line :
    (splitLines ("module".data ++ [Char.ofNat 10] ++ "module a".data)).find? startsWithModule =
      some "module".data ∧
    (fields "module".data)[1]? = none ∧
    getModuleNameFromGoMod
      (fun _ => some ("module".data ++ [Char.ofNat 10] ++ "module a".data)) "go.mod" = "a" := by
  refine ⟨by decide, by decide, by decide⟩

/-- C13, amended: `getModuleNameFromGoMod` returns the second
white-space-separated field of the first line of the text that starts with
"module" and has at least two fields, and the empty string when the text has no
such line or the file cannot be read. -/
theorem getModuleNameFromGoMod_spec (readText : String → Option (List Char))
    (goModPath : String) :
    (∀ text, readText goModPath = some text →
      (∀ line,
        (splitLines text).find? declaresModule = some line →
        ∃ f, (fields line)[1]? = some f ∧
          getModuleNameFromGoMod readText goModPath = String.mk f) ∧
      ((splitLines text).find? declaresModule = none →
        getModuleNameFromGoMod readText goModPath = "")) ∧
    (readText goModPath = none → getModuleNameFromGoMod readText goModPath = "") := by
  constructor
  · intro text hread
    unfold getModuleNameFromGoMod
    rw [hread]
    exact moduleNameLoop_spec (splitLines text)
  · intro hread
    unfold getModuleNameFromGoMod
    rw [hread]
    decide

/-- A concrete instance of the amended C13: a comment line, then the line
`module example.com/x`. -/
theorem getModuleNameFromGoMod_spec_witness :
    ∃ f, (fields "module example.com/x".data)[1]? = some f ∧
      getModuleNameFromGoMod
        (fun _ => some ("// x".data ++ [Char.ofNat 10] ++ "module example.com/x".data ++
          [Char.ofNat 10] ++ "go 1.13".data)) "go.mod" = String.mk f :=
  ((getModuleNameFromGoMod_spec
    (fun _ => some ("// x".data ++ [Char.ofNat 10] ++ "module example.com/x".data ++
      [Char.ofNat 10] ++ "go 1.13".data)) "go.mod").1 _ rfl).1
    "module example.com/x".data (by decide)

/-! ## maybeFindFileFastPath: the upward search -/

theorem goModStep_next_shorter (env : Env) (abs d : String)
    (hstep : goModStep env abs = .next d) : d.utf8ByteSize < abs.utf8ByteSize := by
  unfold goModStep at hstep
  split at hstep
  · cases hstep
  · split at hstep
    · cases hstep
    · rename_i hlen
      cases hstep
      omega

theorem goModSearch_enough (env : Env) (n : Nat) (abs : String)
    (hn : abs.utf8ByteSize < n) : ∃ r, goModSearch env n abs = some r := by
  induction n generalizing abs with
  | zero => omega
  | succ n ih =>
    unfold goModSearch
    cases hstep : goModStep env abs with
    | found a => exact ⟨some a, rfl⟩
    | ranOut => exact ⟨none, rfl⟩
    | next d =>
      have := goModStep_next_shorter env abs d hstep
      exact ih d (by omega)

theorem goModSearch_mono (env : Env) (n : Nat) (abs : String) (r : Option String)
    (hr : goModSearch env n abs = some r) (m : Nat) (hm : n ≤ m) :
    goModSearch env m abs = some r := by
  induction n generalizing abs m with
  | zero => cases hr
  | succ n ih =>
    cases m with
    | zero => omega
    | succ m =>
      unfold goModSearch at hr ⊢
      cases hstep : goModStep env abs with
      | found a => rw [hstep] at hr; exact hr
      | ranOut => rw [hstep] at hr; exact hr
      | next d =>
        rw [hstep] at hr
        exact ih d hr m (by omega)

/-- C18 (the upward search for go.mod terminates): whatever the file probe and
the parent-directory function return, the loop of `maybeFindFileFastPath`
started in `abs` ends within `len(abs) + 1` iterations, and more iterations
give the same outcome: each iteration finds a go.mod file, or returns because
the parent is not strictly shorter, or goes on with a strictly shorter path. -/
theorem goModSearch_terminates (env : Env) (abs : String) :
    (∃ r, goModSearch env (abs.utf8ByteSize + 1) abs = some r ∧
      ∀ m, abs.utf8ByteSize + 1 ≤ m → goModSearch env m abs = some r) ∧
    (goModStep env abs = .found abs ∨ goModStep env abs = .ranOut ∨
      ∃ d, goModStep env abs = .next d ∧ d.utf8ByteSize < abs.utf8ByteSize) ∧
    (env.isFile (env.Join abs "go.mod") = true → goModStep env abs = .found abs) ∧
    (env.isFile (env.Join abs "go.mod") = false →
      abs.utf8ByteSize ≤ (env.Dir abs).utf8ByteSize → goModStep env abs = .ranOut) := by
  refine ⟨?_, ?_, ?_, ?_⟩
  · obtain ⟨r, hr⟩ := goModSearch_enough env (abs.utf8ByteSize + 1) abs (by omega)
    exact ⟨r, hr, fun m hm => goModSearch_mono env _ abs r hr m hm⟩
  · cases hstep : goModStep env abs with
    | found a =>
      left
      unfold goModStep at hstep
      split at hstep
      · cases hstep; rfl
      · split at hstep <;> cases hstep
    | ranOut => exact Or.inr (Or.inl rfl)
    | next d => exact Or.inr (Or.inr ⟨d, rfl, goModStep_next_shorter env abs d hstep⟩)
  · intro hfile
    unfold goModStep
    rw [if_pos hfile]
  · intro hfile hlen
    unfold goModStep
    rw [if_neg (by simp [hfile]), if_pos hlen]

/-- A concrete instance of C18: from `/a/b`, with the go.mod file in `/a` and
a parent function that drops the last two bytes, the second iteration finds
it. -/
theorem goModSearch_terminates_witness :
    (∃ r,
      goModSearch
        { absDot := some "/a/b", isFile := fun p => decide (p = "/a/go.mod"),
          readText := fun _ => none,
          Dir := fun p => String.mk (p.data.take (p.data.length - 2)),
          Join := fun p q => p ++ "/" ++ q, Split := fun p => ("", p),
          importDir := fun _ => none }
        ("/a/b".utf8ByteSize + 1) "/a/b" = some r ∧
      ∀ m, "/a/b".utf8ByteSize + 1 ≤ m →
        goModSearch
          { absDot := some "/a/b", isFile := fun p => decide (p = "/a/go.mod"),
            readText := fun _ => none,
            Dir := fun p => String.mk (p.data.take (p.data.length - 2)),
            Join := fun p q => p ++ "/" ++ q, Split := fun p => ("", p),
            importDir := fun _ => none }
          m "/a/b" = some r) ∧
    goModSearch
      { absDot := some "/a/b", isFile := fun p => decide (p = "/a/go.mod"),
        readText := fun _ => none,
        Dir := fun p => String.mk (p.data.take (p.data.length - 2)),
        Join := fun p q => p ++ "/" ++ q, Split := fun p => ("", p),
        importDir := fun _ => none }
      5 "/a/b" = some (some "/a") :=
  ⟨(goModSearch_terminates
      { absDot := some "/a/b", isFile := fun p => decide (p = "/a/go.mod"),
        readText := fun _ => none,
        Dir := fun p => String.mk (p.data.take (p.data.length - 2)),
        Join := fun p q => p ++ "/" ++ q, Split := fun p => ("", p),
        importDir := fun _ => none } "/a/b").1,
   by decide⟩

/-! ## findFile -/

theorem goModSearch_not_found (env : Env) (n : Nat) (abs : String)
    (hno : ∀ k : Nat, env.isFile (env.Join (Nat.iterate env.Dir k abs) "go.mod") = false)
    (a : String) : goModSearch env n abs ≠ some (some a) := by
  induction n generalizing abs with
  | zero => intro hc; cases hc
  | succ n ih =>
    unfold goModSearch
    cases hstep : goModStep env abs with
    | found b =>
      unfold goModStep at hstep
      have h0 := hno 0
      simp only [Function.iterate_zero, id_eq] at h0
      rw [if_neg (by simp [h0])] at hstep
      split at hstep <;> cases hstep
    | ranOut => intro hc; cases hc
    | next d =>
      have hd : d = env.Dir abs := by
        unfold goModStep at hstep
        split at hstep
        · cases hstep
        · split at hstep
          · cases hstep
          · cases hstep; rfl
      subst hd
      apply ih
      intro k
      have := hno (k + 1)
      rwa [Function.iterate_succ_apply] at this

theorem maybeFindFileFastPath_no_goMod (env : Env) (file : String)
    (hno : env.absDot = none ∨ ∃ abs0, env.absDot = some abs0 ∧
      ∀ k : Nat, env.isFile (env.Join (Nat.iterate env.Dir k abs0) "go.mod") = false) :
    maybeFindFileFastPath env file = "" := by
  unfold maybeFindFileFastPath
  rcases hno with habs | ⟨abs0, habs, hno⟩
  · rw [habs]
  · rw [habs]
    simp only []
    cases hs : goModSearch env (abs0.utf8ByteSize + 1) abs0 with
    | none => rfl
    | some r =>
      cases r with
      | none => rfl
      | some a => exact absurd hs (goModSearch_not_found env _ abs0 hno a)

theorem findFile_of_fast (env : Env) (file : String)
    (hfast : maybeFindFileFastPath env file ≠ "") :
    findFile env file = some (maybeFindFileFastPath env file) := by
  unfold findFile
  rw [if_pos hfast]

theorem findFile_of_not_fast (env : Env) (file : String)
    (hfast : maybeFindFileFastPath env file = "") :
    findFile env file =
      (env.importDir (env.Split file).1).map (fun d => env.Join d (env.Split file).2) := by
  unfold findFile
  rw [if_neg (by simp [hfast])]
  cases env.importDir (env.Split file).1 <;> rfl

/-- C11 (resolver fallback): `findFile` returns the path of the go.mod strategy
when that strategy yields a non-empty path; otherwise it returns the fallback's
result, the package directory joined with the file's base name, and fails
exactly when the package locator fails; in particular, when the working
directory is unknown or no ancestor directory of it holds a go.mod file, the
go.mod strategy yields the empty path and `findFile` is the fallback. -/
theorem findFile_fallback (env : Env) (file : String) :
    (maybeFindFileFastPath env file ≠ "" →
      findFile env file = some (maybeFindFileFastPath env file)) ∧
    (maybeFindFileFastPath env file = "" →
      findFile env file =
        (env.importDir (env.Split file).1).map (fun d => env.Join d (env.Split file).2)) ∧
    (findFile env file = none ↔
      maybeFindFileFastPath env file = "" ∧ env.importDir (env.Split file).1 = none) ∧
    ((env.absDot = none ∨ ∃ abs0, env.absDot = some abs0 ∧
        ∀ k : Nat, env.isFile (env.Join (Nat.iterate env.Dir k abs0) "go.mod") = false) →
      maybeFindFileFastPath env file = "" ∧
      findFile env file =
        (env.importDir (env.Split file).1).map (fun d => env.Join d (env.Split file).2)) := by
  refine ⟨findFile_of_fast env file, findFile_of_not_fast env file, ?_, ?_⟩
  · constructor
    · intro hnone
      by_cases hfast : maybeFindFileFastPath env file = ""
      · refine ⟨hfast, ?_⟩
        rw [findFile_of_not_fast env file hfast] at hnone
        cases himp : env.importDir (env.Split file).1 with
        | none => rfl
        | some d => rw [himp] at hnone; cases hnone
      · rw [findFile_of_fast env file hfast] at hnone
        cases hnone
    · rintro ⟨hfast, himp⟩
      rw [findFile_of_not_fast env file hfast, himp]
      rfl
  · intro hno
    have hfast := maybeFindFileFastPath_no_goMod env file hno
    exact ⟨hfast, findFile_of_not_fast env file hfast⟩

/-- Two concrete instances of C11.  In the first the working directory is
`/w`, no go.mod file exists anywhere and the package locator maps `m/pkg/` to
`/gopath/src/m/pkg`: `findFile` answers with the fallback path.  In the second
`/w/go.mod` declares the module `m` and `/w/pkg/a.go` is a file: `findFile`
answers with the path of the go.mod strategy. -/
theorem findFile_fallback_witness :
    findFile
      { absDot := some "/w", isFile := fun _ => false, readText := fun _ => none,
        Dir := fun p => String.mk (p.data.take (p.data.length - 2)),
        Join := fun p q => p ++ q, Split := fun _ => ("m/pkg/", "/a.go"),
        importDir := fun d => if d = "m/pkg/" then some "/gopath/src/m/pkg" else none }
      "m/pkg/a.go" = some "/gopath/src/m/pkg/a.go" ∧
    findFile
      { absDot := some "/w",
        isFile := fun p => decide (p = "/w/go.mod") || decide (p = "/w/pkg/a.go"),
        readText := fun _ => some "module m".data,
        Dir := fun p => String.mk (p.data.take (p.data.length - 2)),
        Join := fun p q => if q = "go.mod" then p ++ "/go.mod" else p ++ q,
        Split := fun _ => ("m/pkg/", "/a.go"),
        importDir := fun _ => none }
      "m/pkg/a.go" = some "/w/pkg/a.go" :=
  ⟨((findFile_fallback
      { absDot := some "/w", isFile := fun _ => false, readText := fun _ => none,
        Dir := fun p => String.mk (p.data.take (p.data.length - 2)),
        Join := fun p q => p ++ q, Split := fun _ => ("m/pkg/", "/a.go"),
        importDir := fun d => if d = "m/pkg/" then some "/gopath/src/m/pkg" else none }
      "m/pkg/a.go").2.2.2 (Or.inr ⟨"/w", rfl, fun _ => rfl⟩)).2.trans (by decide),
   ((findFile_fallback
      { absDot := some "/w",
        isFile := fun p => decide (p = "/w/go.mod") || decide (p = "/w/pkg/a.go"),
        readText := fun _ => some "module m".data,
        Dir := fun p => String.mk (p.data.take (p.data.length - 2)),
        Join := fun p q => if q = "go.mod" then p ++ "/go.mod" else p ++ q,
        Split := fun _ => ("m/pkg/", "/a.go"),
        importDir := fun _ => none }
      "m/pkg/a.go").1 (by decide)).trans (by decide)⟩

/-! ## mergeProfs: what a call leaves of its inputs -/

theorem blocksButCount_refl (as : List ProfileBlock) : BlocksButCount as as :=
  List.forall₂_same.2 (fun _ _ => ⟨rfl, rfl, rfl, rfl, rfl⟩)

theorem blocksButCount_trans (as bs cs : List ProfileBlock) (h1 : BlocksButCount as bs)
    (h2 : BlocksButCount bs cs) : BlocksButCount as cs := by
  unfold BlocksButCount at h1 h2 ⊢
  induction h1 generalizing cs with
  | nil => cases h2; exact List.Forall₂.nil
  | cons hab _ ih =>
    cases h2 with
    | cons hbc hrest =>
      obtain ⟨a1, a2, a3, a4, a5⟩ := hab
      obtain ⟨b1, b2, b3, b4, b5⟩ := hbc
      exact List.Forall₂.cons
        ⟨a1.trans b1, a2.trans b2, a3.trans b3, a4.trans b4, a5.trans b5⟩ (ih _ hrest)

theorem blocksButCount_zipWith (as bs : List ProfileBlock) (hs : SameBlocks as bs) :
    BlocksButCount as (List.zipWith addCount as bs) := by
  unfold SameBlocks at hs
  unfold BlocksButCount
  induction hs with
  | nil => exact List.Forall₂.nil
  | cons _ _ ih =>
    simp only [List.zipWith_cons_cons]
    exact List.Forall₂.cons ⟨rfl, rfl, rfl, rfl, rfl⟩ ih

theorem mergeProfBlocks_keeps (as bs r : List ProfileBlock)
    (hok : mergeProfBlocks as bs = .ok r) : BlocksButCount as r := by
  obtain ⟨hs, rfl⟩ := (mergeProfBlocks_ok_iff as bs r).1 hok
  exact blocksButCount_zipWith as bs hs

theorem sameButCount_refl (P : Profile) : SameButCount P P :=
  ⟨rfl, rfl, blocksButCount_refl P.Blocks⟩

theorem sameButCount_trans (P Q R : Profile) (h1 : SameButCount P Q)
    (h2 : SameButCount Q R) : SameButCount P R :=
  ⟨h1.1.trans h2.1, h1.2.1.trans h2.2.1, blocksButCount_trans _ _ _ h1.2.2 h2.2.2⟩

theorem mergeProfsInner_keeps (i : Nat) (p : Ptr) (rest : List Report) (h h1 : Heap)
    (hok : mergeProfsInner i p h rest = .ok h1) :
    ∀ (x : Ptr) (P : Profile), h[x]? = some P →
      ∃ P1, h1[x]? = some P1 ∧ SameButCount P P1 := by
  induction rest generalizing h with
  | nil =>
    simp only [mergeProfsInner, Except.ok.injEq] at hok
    subst hok
    exact fun x P hP => ⟨P, hP, sameButCount_refl P⟩
  | cons ps rest ih =>
    unfold mergeProfsInner at hok
    split at hok
    · exact ih h hok
    · split at hok
      · exact ih h hok
      · split at hok
        · cases hok
        · rename_i q hq
          split at hok
          · cases hok
          · rename_i pr hpr
            split at hok
            · exact ih h hok
            · split at hok
              · cases hok
              · rename_i bl hbl
                intro x P hP
                by_cases hx : x = p
                · subst hx
                  have hPpr : P = pr := by
                    rw [hpr] at hP
                    exact (Option.some.inj hP).symm
                  subst hPpr
                  have hset : (h.set x { P with Blocks := bl })[x]? =
                      some { P with Blocks := bl } :=
                    List.getElem?_set_self (lt_length_of_getElem? h x P hpr)
                  obtain ⟨P1, hP1, hs⟩ := ih _ hok x _ hset
                  have hstep : SameButCount P { P with Blocks := bl } :=
                    ⟨rfl, rfl, mergeProfBlocks_keeps _ _ _ hbl⟩
                  exact ⟨P1, hP1, sameButCount_trans _ _ _ hstep hs⟩
                · have hget : (h.set p { pr with Blocks := bl })[x]? = some P := by
                    rw [List.getElem?_set_ne (Ne.symm hx)]
                    exact hP
                  exact ih _ hok x P hget

theorem mergeProfsOuter_keeps (rest : List Report) (tl : List Ptr) (h h1 : Heap) (i : Nat)
    (ret res : List Ptr) (hok : mergeProfsOuter rest h i tl ret = .ok (h1, res)) :
    ∀ (x : Ptr) (P : Profile), h[x]? = some P →
      ∃ P1, h1[x]? = some P1 ∧ SameButCount P P1 := by
  induction tl generalizing h i ret with
  | nil =>
    simp only [mergeProfsOuter, Except.ok.injEq, Prod.mk.injEq] at hok
    obtain ⟨rfl, rfl⟩ := hok
    exact fun x P hP => ⟨P, hP, sameButCount_refl P⟩
  | cons p tl ih =>
    unfold mergeProfsOuter at hok
    split at hok
    · cases hok
    · rename_i h2 hin
      intro x P hP
      obtain ⟨P2, hP2, hs2⟩ := mergeProfsInner_keeps i p rest h h2 hin x P hP
      obtain ⟨P1, hP1, hs1⟩ := ih h2 (i + 1) _ hok x P2 hP2
      exact ⟨P1, hP1, sameButCount_trans _ _ _ hs2 hs1⟩

theorem mergeProfs_keeps (h h1 : Heap) (pfss : List Report) (res : Report)
    (hok : mergeProfs h pfss = .ok (h1, res)) :
    ∀ (x : Ptr) (P : Profile), h[x]? = some P →
      ∃ P1, h1[x]? = some P1 ∧ SameButCount P P1 := by
  unfold mergeProfs at hok
  split at hok
  · simp only [Except.ok.injEq, Prod.mk.injEq] at hok
    obtain ⟨rfl, _⟩ := hok
    exact fun x P hP => ⟨P, hP, sameButCount_refl P⟩
  · simp only [Except.ok.injEq, Prod.mk.injEq] at hok
    obtain ⟨rfl, _⟩ := hok
    exact fun x P hP => ⟨P, hP, sameButCount_refl P⟩
  · exact mergeProfsOuter_keeps _ _ h h1 0 [] res hok

/-- C10, amended: when `mergeProfs` returns, every input report still holds the
same file profiles: every profile object keeps its file name and mode and a
block list of the same length with the same `StartLine`, `StartCol`, `EndLine`,
`EndCol` and `NumStmt` at every index.  Only counts can change, and only in the
profile objects of the baseline: no object outside the baseline is changed, so
every input report that shares no object with the baseline holds the same
counts too, and on the fast paths (at most one report left after the empty ones
are skipped) nothing is changed at all.  The returned list is the baseline's
own list of profile objects, so the baseline read after the call is the merged
result; for non-empty reports held as distinct objects, baseline profile `i`
then holds the left fold of `mergeProfBlocks` over the matching blocks of the
later reports, and with at most one non-empty report nothing is changed. -/
theorem mergeProfs_frame_effect (h h1 : Heap) (pfss : List Report) (res : Report)
    (hok : mergeProfs h pfss = .ok (h1, res)) :
    res = baseline pfss ∧
      (∀ q : Ptr, q ∉ baseline pfss → h1[q]? = h[q]?) ∧
      (∀ r ∈ pfss, (∀ p ∈ r, p ∉ baseline pfss) → loadReport h1 r = loadReport h r) ∧
      (∀ q : Ptr, headerAt h1 q = headerAt h q) ∧
      ((skipEmpty pfss).length ≤ 1 → h1 = h) ∧
      h1.length = h.length ∧
      (∀ (q : Ptr) (P : Profile), h[q]? = some P →
        ∃ P1, h1[q]? = some P1 ∧ SameButCount P P1) ∧
      (∀ r ∈ pfss, ∀ (k : Nat) (P : Profile), (loadReport h r)[k]? = some (some P) →
        ∃ P1, (loadReport h1 r)[k]? = some (some P1) ∧ SameButCount P P1) ∧
      loadReport h1 (baseline pfss) = loadReport h1 res ∧
      ((nonEmptyReports pfss).length ≤ 1 → h1 = h) ∧
      (∀ (head : Report) (rest : List Report) (base : List Profile)
          (restV : List (List Profile)),
        nonEmptyReports pfss = head :: rest → rest ≠ [] →
        Represents h (head :: rest) (base :: restV) → NoAlias (head :: rest) →
        baseline pfss = head ∧
        ∀ (i : Nat) (P : Profile), base[i]? = some P → ∃ B,
          List.foldlM mergeProfBlocks P.Blocks (selected P.FileName i restV) = .ok B ∧
          (loadReport h1 (baseline pfss))[i]? = some (some { P with Blocks := B })) := by
  obtain ⟨hr, hlen, hf, hn⟩ := mergeProfs_frame h h1 pfss res hok
  have hkeep := mergeProfs_keeps h h1 pfss res hok
  refine ⟨hr, hf, ?_, hn, mergeProfs_fast_heap h h1 pfss res hok, hlen, hkeep, ?_, ?_, ?_, ?_⟩
  · intro r _ hdis
    exact loadReport_congr h h1 r (fun p hp => hf p (hdis p hp))
  · intro r _ k P hk
    simp only [loadReport, List.getElem?_map] at hk ⊢
    cases hp : r[k]? with
    | none => rw [hp] at hk; cases hk
    | some p =>
      rw [hp] at hk
      simp only [Option.map_some', Option.some.injEq] at hk
      obtain ⟨P1, hP1, hs⟩ := hkeep p P hk
      exact ⟨P1, by simp [hP1], hs⟩
  · rw [hr]
  · intro hshort
    have hok2 := hok
    rw [mergeProfs_nonEmpty] at hok2
    apply mergeProfs_fast_heap h h1 _ res hok2
    match hne : nonEmptyReports pfss, hshort with
    | [], _ => simp [skipEmpty, skipEmptyLoop]
    | [r], _ =>
      by_cases hr0 : r = []
      · subst hr0; simp [skipEmpty, skipEmptyLoop]
      · rw [skipEmpty_cons_of_ne_nil r [] hr0]; simp
    | _ :: _ :: _, hlen2 => simp at hlen2
  · intro head rest base restV hpfss hrest hrep hna
    have hne : head ≠ [] := by
      have hmem : head ∈ nonEmptyReports pfss := by rw [hpfss]; exact List.mem_cons_self _ _
      unfold nonEmptyReports at hmem
      exact List.length_pos.1 (by simpa using (List.mem_filter.1 hmem).2)
    have hok2 := hok
    rw [mergeProfs_nonEmpty, hpfss] at hok2
    obtain ⟨hg1, _⟩ := mergeProfs_general h head rest base restV
      (skipEmpty_cons_of_ne_nil head rest hne) hrest hrep hna
    obtain ⟨hres, hidx⟩ := hg1 h1 res hok2
    refine ⟨by rw [← hr, hres], ?_⟩
    intro i P hP
    obtain ⟨B, hB, hload⟩ := hidx i P hP
    exact ⟨B, hB, by rw [← hr]; exact hload⟩

/-- A concrete instance of the amended C10: after the merge of two one-profile
reports with counts 1 and 2 the second report is left as it was, and the
baseline object differs from what it was in its count only. -/
theorem mergeProfs_frame_effect_witness :
    loadReport [⟨"a.go", "set", [⟨1, 1, 2, 2, 1, 3⟩]⟩, ⟨"a.go", "set", [⟨1, 1, 2, 2, 1, 2⟩]⟩] [1] =
      loadReport [⟨"a.go", "set", [⟨1, 1, 2, 2, 1, 1⟩]⟩, ⟨"a.go", "set", [⟨1, 1, 2, 2, 1, 2⟩]⟩] [1] ∧
    ∃ P1,
      ([⟨"a.go", "set", [⟨1, 1, 2, 2, 1, 3⟩]⟩, ⟨"a.go", "set", [⟨1, 1, 2, 2, 1, 2⟩]⟩] :
        Heap)[0]? = some P1 ∧
      SameButCount ⟨"a.go", "set", [⟨1, 1, 2, 2, 1, 1⟩]⟩ P1 :=
  ⟨(mergeProfs_frame_effect
      [⟨"a.go", "set", [⟨1, 1, 2, 2, 1, 1⟩]⟩, ⟨"a.go", "set", [⟨1, 1, 2, 2, 1, 2⟩]⟩]
      [⟨"a.go", "set", [⟨1, 1, 2, 2, 1, 3⟩]⟩, ⟨"a.go", "set", [⟨1, 1, 2, 2, 1, 2⟩]⟩]
      [[0], [1]] [0] (by decide)).2.2.1 [1] (by decide) (by decide),
   (mergeProfs_frame_effect
      [⟨"a.go", "set", [⟨1, 1, 2, 2, 1, 1⟩]⟩, ⟨"a.go", "set", [⟨1, 1, 2, 2, 1, 2⟩]⟩]
      [⟨"a.go", "set", [⟨1, 1, 2, 2, 1, 3⟩]⟩, ⟨"a.go", "set", [⟨1, 1, 2, 2, 1, 2⟩]⟩]
      [[0], [1]] [0] (by decide)).2.2.2.2.2.2.1 0 ⟨"a.go", "set", [⟨1, 1, 2, 2, 1, 1⟩]⟩
      (by decide)⟩

end Gocover
